import Mathlib

/-! The image list controller of ahoviewer.

A shallow embedding of `src/imagelist.cc` (class `ImageList`): the cache window built by
`update_cache`, its diff against the previous window, the priority sort that orders the
loader's work list, and the controller operations `load`, `clear`, `set_current` and
`go_next` / `go_previous` / `go_first` / `go_last`.

Conventions.

* `size_t` values are natural numbers below `2 ^ 64`; sums and differences wrap
  (`addSz`, `subSz`). `static_cast<int>(x) >= 0` reads the low 32 bits of `x` as a
  signed integer (`intNonneg`).
* A `double` holding a non-negative integer is represented by that integer; `toDouble`
  is the rounding to 53 significant bits (nearest, ties to even) that storing an
  integer in a `double` performs.
* `std::sort` is the one of libstdc++ (`bits/stl_algo.h`, `bits/stl_heap.h`): an
  introsort that leaves ranges of at most 16 elements to a final insertion sort
  (`stdSort`).
* The file system, the archive library, the settings store and `NaturalSort` are not
  part of `imagelist.cc`; they are parameters (`FileSystem`, `Settings`).
* Signals and widget calls leave the controller state untouched and are not recorded.
  The calls `m_Images[i]->reset_pixbuf()` of `update_cache` are returned as a list.
-/

namespace AhoViewer

/-! ## Machine arithmetic -/

/-- Sum of two `size_t` values: 64 bits, wrapping. -/
def addSz (a b : Nat) : Nat := (a + b) % 2 ^ 64

/-- Difference of two `size_t` values: 64 bits, wrapping. -/
def subSz (a b : Nat) : Nat := ((2 ^ 64 - b % 2 ^ 64) + a) % 2 ^ 64

/-- The test `static_cast<int>(x) >= 0` for a `size_t` value `x`: the low 32 bits of `x`,
read as a two's complement `int`, are not negative. -/
def intNonneg (x : Nat) : Bool := decide (x % 2 ^ 32 < 2 ^ 31)

/-- Conversion of an `int` argument to `size_t` (`m_Index = index`). -/
def intToSz (i : Int) : Nat := (i % 2 ^ 64).toNat

/-- Number of low bits that do not fit the 53 bit significand of a `double`. -/
def doubleShift : Nat → Nat → Nat
  | 0, _ => 0
  | fuel + 1, n => if n < 2 ^ 53 then 0 else doubleShift fuel (n / 2) + 1

/-- The `double` nearest to the integer `n` (round to nearest, ties to even), as an
integer. Integers below `2 ^ 53` are exact. -/
def toDouble (n : Nat) : Nat :=
  let s := doubleShift n n
  let q := n / 2 ^ s
  let r := n % 2 ^ s
  if 2 ^ s < 2 * r ∨ (2 * r = 2 ^ s ∧ q % 2 = 1) then (q + 1) * 2 ^ s else q * 2 ^ s

/-! ## Library algorithms used by `update_cache` -/

/-- One insertion step of `std::__insertion_sort` and `std::__unguarded_insertion_sort`:
`v` is moved left past the elements it is less than and stops behind the last element it is
not less than. In a sorted prefix the elements that `v` is less than form the tail, so `v`
lands before the first of them. -/
def linearInsert {α : Type} (comp : α → α → Bool) (v : α) : List α → List α
  | [] => [v]
  | e :: es => if comp v e then v :: e :: es else e :: linearInsert comp v es

/-- The call `std::__final_insertion_sort(first, last, comp)`: every element in turn is
inserted into the sorted prefix before it. Elements that `comp` cannot tell apart keep their
order. -/
def final_insertion_sort {α : Type} (comp : α → α → Bool) (l : List α) : List α :=
  l.foldl (fun sorted v => linearInsert comp v sorted) []

/-- Halving loop of `std::__lg`. -/
def lgFuel : Nat → Nat → Nat
  | 0, _ => 0
  | fuel + 1, n => if n ≤ 1 then 0 else lgFuel fuel (n / 2) + 1

/-- The call `std::__lg(n)`: the position of the highest set bit of `n`. -/
def lg (n : Nat) : Nat := lgFuel n n

/-- The call `std::iter_swap(first + i, first + j)`. -/
def iter_swap {α : Type} (l : List α) (i j : Nat) : List α :=
  match l[i]?, l[j]? with
  | some a, some b => (l.set i b).set j a
  | _, _ => l

/-- The call `std::__move_median_to_first(result, a, b, c, comp)`, the iterators given as
offsets from `first`. -/
def move_median_to_first {α : Type} (comp : α → α → Bool) (l : List α)
    (result a b c : Nat) : List α :=
  match l[a]?, l[b]?, l[c]? with
  | some x, some y, some z =>
    if comp x y then
      if comp y z then iter_swap l result b
      else if comp x z then iter_swap l result c
      else iter_swap l result a
    else if comp x z then iter_swap l result a
    else if comp y z then iter_swap l result c
    else iter_swap l result b
  | _, _, _ => l

/-- The loop `while (comp(first, pivot)) ++first` of `std::__unguarded_partition`. The
range has an element that is not less than the pivot, so the loop ends inside it; the fuel
is the length of the range. -/
def scanUp {α : Type} (comp : α → α → Bool) (l : List α) (pivot : Nat) : Nat → Nat → Nat
  | 0, first => first
  | fuel + 1, first =>
    match l[first]?, l[pivot]? with
    | some x, some p => if comp x p then scanUp comp l pivot fuel (first + 1) else first
    | _, _ => first

/-- The loop `while (comp(pivot, last)) --last` of `std::__unguarded_partition`. -/
def scanDown {α : Type} (comp : α → α → Bool) (l : List α) (pivot : Nat) : Nat → Nat → Nat
  | 0, last => last
  | fuel + 1, last =>
    match l[pivot]?, l[last]? with
    | some p, some x => if comp p x then scanDown comp l pivot fuel (last - 1) else last
    | _, _ => last

/-- The call `std::__unguarded_partition(first, last, pivot, comp)`: the range after the
swaps and the cut that is returned. Every round moves `first` up, so the length of the
range is fuel enough. -/
def unguarded_partition {α : Type} (comp : α → α → Bool) (pivot : Nat) :
    Nat → List α → Nat → Nat → List α × Nat
  | 0, l, first, _ => (l, first)
  | fuel + 1, l, first, last =>
    let first1 := scanUp comp l pivot l.length first
    let last1 := scanDown comp l pivot l.length (last - 1)
    if first1 < last1 then
      unguarded_partition comp pivot fuel (iter_swap l first1 last1) (first1 + 1) last1
    else (l, first1)

/-- The call `std::__unguarded_partition_pivot(first, last, comp)` on the range `l`. -/
def unguarded_partition_pivot {α : Type} (comp : α → α → Bool) (l : List α) : List α × Nat :=
  unguarded_partition comp 0 l.length
    (move_median_to_first comp l 0 1 (l.length / 2) (l.length - 1)) 1 l.length

/-- The call `std::__push_heap(first, holeIndex, topIndex, value, comp)`. The hole moves to
its parent in every round, so the length of the range is fuel enough. -/
def push_heap {α : Type} (comp : α → α → Bool) (value : α) (topIndex : Nat) :
    Nat → List α → Nat → List α
  | 0, l, holeIndex => l.set holeIndex value
  | fuel + 1, l, holeIndex =>
    match l[(holeIndex - 1) / 2]? with
    | some p =>
      if topIndex < holeIndex ∧ comp p value = true then
        push_heap comp value topIndex fuel (l.set holeIndex p) ((holeIndex - 1) / 2)
      else l.set holeIndex value
    | none => l.set holeIndex value

/-- The loop `while (secondChild < (len - 1) / 2)` of `std::__adjust_heap`, in which
`holeIndex` and `secondChild` are equal at the head of every round: the greater child moves
into the hole. The range after the loop and the hole. -/
def siftHole {α : Type} (comp : α → α → Bool) (len : Nat) : Nat → List α → Nat → List α × Nat
  | 0, l, hole => (l, hole)
  | fuel + 1, l, hole =>
    if hole < (len - 1) / 2 then
      match l[2 * (hole + 1)]?, l[2 * (hole + 1) - 1]? with
      | some x, some y =>
        if comp x y then siftHole comp len fuel (l.set hole y) (2 * (hole + 1) - 1)
        else siftHole comp len fuel (l.set hole x) (2 * (hole + 1))
      | _, _ => (l, hole)
    else (l, hole)

/-- The statement `if ((len & 1) == 0 && secondChild == (len - 2) / 2)` of
`std::__adjust_heap`: in a range of even length the last parent has one child only. The
lengths are signed in the library, so `(len - 2) / 2` is no index when `len` is 0. -/
def lastChild {α : Type} (len : Nat) (l : List α) (hole : Nat) : List α × Nat :=
  if len % 2 = 0 ∧ 2 ≤ len ∧ hole = (len - 2) / 2 then
    match l[2 * (hole + 1) - 1]? with
    | some y => (l.set hole y, 2 * (hole + 1) - 1)
    | none => (l, hole)
  else (l, hole)

/-- The call `std::__adjust_heap(first, holeIndex, len, value, comp)`. -/
def adjust_heap {α : Type} (comp : α → α → Bool) (l : List α) (holeIndex len : Nat)
    (value : α) : List α :=
  let s := siftHole comp len len l holeIndex
  let t := lastChild len s.1 s.2
  push_heap comp value holeIndex len t.1 t.2

/-- The call `std::__pop_heap(first, first + last, first + result, comp)`. -/
def pop_heap {α : Type} (comp : α → α → Bool) (l : List α) (last result : Nat) : List α :=
  match l[result]?, l[0]? with
  | some value, some top => adjust_heap comp (l.set result top) 0 last value
  | _, _ => l

/-- The loop of `std::__make_heap`, from `parent` down to 0. -/
def makeHeapFrom {α : Type} (comp : α → α → Bool) (len : Nat) : Nat → List α → List α
  | 0, l =>
    match l[0]? with
    | some v => adjust_heap comp l 0 len v
    | none => l
  | parent + 1, l =>
    match l[parent + 1]? with
    | some v => makeHeapFrom comp len parent (adjust_heap comp l (parent + 1) len v)
    | none => l

/-- The call `std::__make_heap(first, last, comp)` on the range `l`. -/
def make_heap {α : Type} (comp : α → α → Bool) (l : List α) : List α :=
  if l.length < 2 then l else makeHeapFrom comp l.length ((l.length - 2) / 2) l

/-- The call `std::__sort_heap(first, first + last, comp)`. -/
def sort_heap {α : Type} (comp : α → α → Bool) : Nat → List α → List α
  | 0, l => l
  | last + 1, l => if 1 < last + 1 then sort_heap comp last (pop_heap comp l last last) else l

/-- The call `std::__partial_sort(first, last, last, comp)` on the range `l`: with
`middle = last` the loop of `std::__heap_select` has nothing to visit, what is left is
`std::__make_heap` and `std::__sort_heap`. -/
def heap_sort {α : Type} (comp : α → α → Bool) (l : List α) : List α :=
  sort_heap comp l.length (make_heap comp l)

/-- The call `std::__introsort_loop(first, last, depth_limit, comp)` on the range `l`: a
range of more than 16 elements is heap-sorted when the depth limit is used up and otherwise
cut in two at the pivot, both parts being treated with the decremented limit; a range of at
most 16 elements is left as it is. -/
def introsort_loop {α : Type} (comp : α → α → Bool) : Nat → List α → List α
  | 0, l => if 16 < l.length then heap_sort comp l else l
  | depth + 1, l =>
    if 16 < l.length then
      let p := unguarded_partition_pivot comp l
      introsort_loop comp depth (p.1.take p.2) ++ introsort_loop comp depth (p.1.drop p.2)
    else l

/-- The call `std::sort(first, last, comp)` as libstdc++ runs it: `std::__introsort_loop`
with the depth limit `2 * std::__lg(last - first)`, then `std::__final_insertion_sort`. A
range of at most 16 elements is insertion-sorted alone. The unguarded loops of the library
stay inside the range when `comp` is a strict weak ordering, as the comparators of
`ImageList` are. When `comp` tells all elements apart the result is the only sorted
arrangement; elements that `comp` cannot tell apart keep their order in a range of at most
16 elements and are stored as the partitioning left them in a longer one. -/
def stdSort {α : Type} (comp : α → α → Bool) (l : List α) : List α :=
  if l.isEmpty then l
  else final_insertion_sort comp (introsort_loop comp (lg l.length * 2) l)

/-- Inner loop of `std::set_difference` while the head `a` of the first range is compared
with the second range; `rest` continues with the tail of the first range. -/
def setDifferenceHead (a : Nat) (rest : List Nat → List Nat) : List Nat → List Nat
  | [] => a :: rest []
  | b :: bs =>
    if a < b then a :: rest (b :: bs)
    else if b < a then setDifferenceHead a rest bs
    else rest bs

/-- The call `std::set_difference(a.begin(), a.end(), b.begin(), b.end(), out)` on two
ascending ranges: an element of the first range is copied when it is less than the head of
the second, the head of the second is dropped when it is less, and both heads are dropped
when neither is less; what remains of the first range is copied. -/
def set_difference : List Nat → List Nat → List Nat
  | [], _ => []
  | a :: as, bs => setDifferenceHead a (set_difference as) bs

/-! ## The cache window -/

/-- Local variables of the loop in `update_cache`. -/
structure CacheLoop where
  cache : List Nat
  ncount : Nat
  pcount : Nat
deriving DecidableEq

/-- First half of the loop body of `update_cache`: the forward neighbour `m_Index + i`, or
else a compensating position behind `m_Index - cacheSize`. -/
def cacheIterForward (index size cacheSize : Nat) (s : CacheLoop) (i : Nat) : CacheLoop :=
  if addSz index i < size then
    { s with cache := s.cache ++ [addSz index i], ncount := addSz s.ncount 1 }
  else if intNonneg (subSz (subSz index i) cacheSize) then
    { s with cache := s.cache ++ [addSz (subSz (subSz index i) cacheSize) s.ncount] }
  else s

/-- Second half of the loop body of `update_cache`: the backward neighbour `m_Index - i`, or
else a compensating position ahead of `m_Index + cacheSize`. -/
def cacheIterBackward (index size cacheSize : Nat) (s : CacheLoop) (i : Nat) : CacheLoop :=
  if intNonneg (subSz index i) then
    { s with cache := s.cache ++ [subSz index i], pcount := addSz s.pcount 1 }
  else if addSz (addSz index i) cacheSize < size then
    { s with cache := s.cache ++ [subSz (addSz (addSz index i) cacheSize) s.pcount] }
  else s

/-- Body of the loop in `update_cache` for one value of `i`. -/
def cacheIter (index size cacheSize : Nat) (s : CacheLoop) (i : Nat) : CacheLoop :=
  cacheIterBackward index size cacheSize (cacheIterForward index size cacheSize s i) i

/-- The loop of `update_cache` after the iterations `i = 1, ..., k`. -/
def cacheLoopUpTo (index size cacheSize k : Nat) : CacheLoop :=
  (List.range' 1 k).foldl (cacheIter index size cacheSize) ⟨[index], 0, 0⟩

/-- The local vector `cache` of `update_cache` when the loop
`for (i = 1; i < cacheSize + 1; ++i)` is left. -/
def window (index cacheSize size : Nat) : List Nat :=
  (cacheLoopUpTo index size cacheSize (addSz cacheSize 1 - 1)).cache

/-- One side of the comparison in the lambda passed to `std::sort`:
`a < m_Index ? std::abs(a - m_Index) + 1e18 : a`, a `double`. For `a < m_Index` the `size_t`
difference `a - m_Index` has wrapped to `2 ^ 64 - (m_Index - a)`; `std::abs` of that
non-negative value is the value itself, as a `double`; the sum with `1e18` is a `double`. -/
def sortKey (index a : Nat) : Nat :=
  if a < index then toDouble (toDouble (subSz a index) + 10 ^ 18) else toDouble a

/-- The lambda passed to `std::sort` in `update_cache`. -/
def priorityLess (index a b : Nat) : Bool := decide (sortKey index a < sortKey index b)

/-- The same key when `std::abs` is resolved to its `long` overload, so that the wrapped
difference is read back as `-(m_Index - a)` and `std::abs` yields the distance. -/
def sortKeySigned (index a : Nat) : Nat :=
  if a < index then toDouble (toDouble (index - a) + 10 ^ 18) else toDouble a

/-! ## The controller -/

/-- An element of `m_Images`, identified by its path. -/
abbrev Image := String

/-- Values read from the settings store. -/
structure Settings where
  /-- The value `Settings.get_int("CacheSize")`, converted to `size_t`. -/
  CacheSize : Nat
  /-- The value `Settings.get_bool("AutoOpenArchive")`. -/
  AutoOpenArchive : Bool
  /-- The value `Settings.get_int("BooruLimit")`, converted to `size_t`. -/
  BooruLimit : Nat

/-- The data members of `ImageList` that the operations below read or write. A thread
pointer is `none` when it is `nullptr`; a running cache thread carries the list it
captured, a thumbnail thread the indices it submits to its pool. -/
structure ImageList where
  m_Images : List Image
  m_Index : Nat
  m_Cache : List Nat
  m_Archive : Option String
  m_ArchiveEntries : List String
  m_CacheThread : Option (List Nat)
  m_ThumbnailThread : Option (List Nat)
deriving DecidableEq

/-- The state left by the constructor `ImageList::ImageList`. -/
def ImageList.fresh : ImageList :=
  { m_Images := [], m_Index := 0, m_Cache := [], m_Archive := none, m_ArchiveEntries := [],
    m_CacheThread := none, m_ThumbnailThread := none }

/-- The method `ImageList::cancel_cache`. -/
def cancel_cache (s : ImageList) : ImageList :=
  match s.m_CacheThread with
  | some _ => { s with m_CacheThread := none, m_Cache := [] }
  | none => s

/-- The method `ImageList::update_cache`: the new state and the indices `i` for which
`m_Images[i]->reset_pixbuf()` is called, in call order. -/
def update_cache (cfg : Settings) (s : ImageList) : ImageList × List Nat :=
  let cache := window s.m_Index cfg.CacheSize s.m_Images.length
  let old := if s.m_Cache.isEmpty then s.m_Cache else stdSort (fun a b => decide (a < b)) s.m_Cache
  let cache1 := if s.m_Cache.isEmpty then cache else stdSort (fun a b => decide (a < b)) cache
  let diff := if s.m_Cache.isEmpty then [] else set_difference old cache1
  let cache2 := stdSort (priorityLess s.m_Index) cache1
  let s1 := cancel_cache { s with m_Cache := old }
  ({ s1 with m_CacheThread := some cache2, m_Cache := cache2 }, diff)

/-- The method `ImageList::set_current`. -/
def set_current (cfg : Settings) (s : ImageList) (index : Nat) (fromWidget : Bool) :
    ImageList × List Nat :=
  if index = s.m_Index ∧ fromWidget = true then (s, [])
  else update_cache cfg { s with m_Index := index }

/-- The indices for which `ImageList::load_thumbnails` pushes a job to its pool:
the loop `for (i = 0; i < m_Images.size(); ++i)`. -/
def load_thumbnails (s : ImageList) : List Nat := List.range s.m_Images.length

/-- The handler `ImageList::on_thumbnails_loaded`. -/
def on_thumbnails_loaded (s : ImageList) : ImageList := { s with m_ThumbnailThread := none }

/-- The method `ImageList::clear` up to the statement `m_Images.clear()`: both threads are
cancelled and joined. -/
def clear_join (s : ImageList) : ImageList :=
  { cancel_cache s with m_ThumbnailThread := none }

/-- The method `ImageList::clear`. -/
def clear (s : ImageList) : ImageList :=
  { clear_join s with m_Images := [], m_Archive := none, m_Index := 0 }

/-! ## Loading a collection -/

/-- What `load` asks of the file system, the archive library and `naturalsort.h`. -/
structure FileSystem where
  /-- The test `Glib::file_test(path, Glib::FILE_TEST_EXISTS)`. -/
  file_exists : String → Bool
  /-- The test `Glib::file_test(path, Glib::FILE_TEST_IS_DIR)`. -/
  is_dir : String → Bool
  /-- The names found by `Glib::Dir` in a directory, in listing order. -/
  dir_list : String → List String
  /-- The function `Glib::build_filename`. -/
  build_filename : String → String → String
  /-- The function `Glib::path_get_dirname`. -/
  dirname : String → String
  /-- The predicate `Image::is_valid`. -/
  image_is_valid : String → Bool
  /-- The predicate `Archive::is_valid`. -/
  archive_is_valid : String → Bool
  /-- Whether `Archive::get_extractor(path)` returns an extractor. -/
  has_extractor : String → Bool
  /-- The value `get_extracted_path()` of an archive opened on a path; empty when the
  extraction failed. -/
  extracted_path : String → String
  /-- The comparison `NaturalSort()`. -/
  natural_less : String → String → Bool

/-- One iteration of the `while` loop of `ImageList::get_image_entries` on the directory
entry `name`; `recurse` stands for the recursive call, `archive` for the test `m_Archive`.
The loop state `acc` is the kept entries, `rEntries` and `recurseCount`. -/
def imageEntriesStep (fs : FileSystem) (archive : Bool) (recurse : String → Nat → List String)
    (path : String) (acc : List String × List String × Nat) (name : String) :
    List String × List String × Nat :=
  let e := fs.build_filename path name
  let acc1 : List String × Nat :=
    if archive = true ∧ fs.is_dir e = true ∧ acc.2.2 < 10 then
      (recurse e (acc.2.2 + 1), acc.2.2 + 1)
    else (acc.2.1, acc.2.2)
  if fs.image_is_valid e then (acc.1 ++ [e], acc1.1, acc1.2) else (acc.1, acc1.1, acc1.2)

/-- The body of `ImageList::get_image_entries` for one directory: the loop over its entries,
then the kept entries followed by `rEntries`. -/
def imageEntriesLoop (fs : FileSystem) (archive : Bool) (recurse : String → Nat → List String)
    (path : String) (recurseCount : Nat) : List String :=
  let r := (fs.dir_list path).foldl (imageEntriesStep fs archive recurse path)
    ([], [], recurseCount)
  r.1 ++ r.2.1

/-- The method `ImageList::get_image_entries` with its nesting depth made explicit: a call
nested `k` deep has `recurseCount >= k`, and recursion needs `recurseCount < 10`. -/
def get_image_entries_depth (fs : FileSystem) (archive : Bool) : Nat → String → Nat → List String
  | 0 => imageEntriesLoop fs archive (fun _ _ => [])
  | depth + 1 => imageEntriesLoop fs archive (get_image_entries_depth fs archive depth)

/-- The method `ImageList::get_image_entries`, called with `recurseCount = 0`. -/
def get_image_entries (fs : FileSystem) (archive : Bool) (path : String) : List String :=
  get_image_entries_depth fs archive 10 path 0

/-- The method `ImageList::get_archive_entries` for the archive at `archivePath`. -/
def get_archive_entries (fs : FileSystem) (archivePath : String) : List String :=
  let path := fs.dirname archivePath
  stdSort fs.natural_less
    (((fs.dir_list path).map (fs.build_filename path)).filter fs.archive_is_valid)

/-- Result of `load(path, error, index)`: the returned flag, the message written to `error`
(if any) and the controller afterwards. -/
structure LoadResult where
  ok : Bool
  error : Option String
  state : ImageList

/-- The part of `ImageList::load(path, error, index)` between the resolution of `path`
and the choice of `m_Index`; `archive` is the local `archive` pointer (the path of the
archive, if one was opened) and `dirPath` the directory to list. The result is either
the error message with the state left behind, or the sorted entries with the state in
which `m_Index` has been assigned. -/
def load_from_dir (fs : FileSystem) (s0 : ImageList) (archive : Option String)
    (path dirPath : String) (index : Int) : (String × ImageList) ⊕ (List String × ImageList) :=
  let s1 : ImageList :=
    match archive with
    | none => { s0 with m_Archive := none }
    | some a => { s0 with m_ArchiveEntries := get_archive_entries fs a }
  let entries := get_image_entries fs s1.m_Archive.isSome dirPath
  if entries.isEmpty then
    .inl ("No valid image files found in '" ++ dirPath ++ "'.", { s1 with m_Archive := none })
  else
    let sorted := stdSort fs.natural_less entries
    let idx : Nat :=
      if path ≠ dirPath ∧ s1.m_Archive.isNone then
        (if path ∈ sorted then sorted.indexOf path else 0)
      else if index = -1 then subSz sorted.length 1
      else intToSz index
    .inr (sorted, { s1 with m_Index := idx })

/-- The first part of `ImageList::load(path, error, index)`, up to the choice of `m_Index`:
the resolution of `path`, then `load_from_dir`. -/
def load_select (fs : FileSystem) (s : ImageList) (path : String) (index : Int) :
    (String × ImageList) ⊕ (List String × ImageList) :=
  if fs.file_exists path then
    if fs.is_dir path then load_from_dir fs s none path path index
    else if fs.image_is_valid path then load_from_dir fs s none path (fs.dirname path) index
    else if fs.has_extractor path then
      if (fs.extracted_path path).isEmpty then
        .inl ("Failed to extract '" ++ path ++ "'", s)
      else
        load_from_dir fs { s with m_Archive := some path } (some path) path
          (fs.extracted_path path) index
    else .inl ("'" ++ path ++ "' is invalid or not supported.", s)
  else .inl ("File or directory '" ++ path ++ "' could not be opened.", s)

/-- The state of `ImageList::load(path, error, index)` when it reaches `m_Images.clear()`,
that is after its call of `cancel_cache`; `none` when `load` has returned before. -/
def load_at_clear (fs : FileSystem) (s : ImageList) (path : String) (index : Int) :
    Option ImageList :=
  match load_select fs s path index with
  | .inl _ => none
  | .inr (_, s1) => some (cancel_cache s1)

/-- The method `ImageList::load(path, error, index)`. -/
def load (fs : FileSystem) (cfg : Settings) (s : ImageList) (path : String) (index : Int) :
    LoadResult :=
  match load_select fs s path index with
  | .inl (e, s1) => ⟨false, some e, s1⟩
  | .inr (entries, s1) =>
    let s2 := cancel_cache s1
    let s3 : ImageList := { s2 with m_Images := entries }
    let s4 : ImageList := { s3 with m_ThumbnailThread := some (load_thumbnails s3) }
    ⟨true, none, (set_current cfg s4 s4.m_Index false).1⟩

/-- The method `ImageList::load(posts, page)`; `posts` are the images built from the `post`
children of the node, in document order. -/
def load_posts (cfg : Settings) (s : ImageList) (posts : List Image) : ImageList :=
  let s1 : ImageList := { s with m_Images := s.m_Images ++ posts }
  let s2 : ImageList := { s1 with m_ThumbnailThread := some (load_thumbnails s1) }
  if s2.m_Images.length ≤ cfg.BooruLimit then (set_current cfg s2 s2.m_Index false).1 else s2

/-! ## Navigation -/

/-- The method `ImageList::go_next`. An element read past the end of `m_ArchiveEntries`
is taken to be the empty path. -/
def go_next (fs : FileSystem) (cfg : Settings) (s : ImageList) : ImageList :=
  if addSz s.m_Index 1 < s.m_Images.length then (set_current cfg s (addSz s.m_Index 1) false).1
  else
    match s.m_Archive with
    | some a =>
      if cfg.AutoOpenArchive then
        let i := s.m_ArchiveEntries.indexOf a
        if i < subSz s.m_ArchiveEntries.length 1 then
          (load fs cfg s (s.m_ArchiveEntries.getD (i + 1) "") 0).state
        else s
      else s
    | none => s

/-- The method `ImageList::go_previous`. -/
def go_previous (fs : FileSystem) (cfg : Settings) (s : ImageList) : ImageList :=
  if s.m_Index ≠ 0 then (set_current cfg s (subSz s.m_Index 1) false).1
  else
    match s.m_Archive with
    | some a =>
      if cfg.AutoOpenArchive then
        let i := s.m_ArchiveEntries.indexOf a
        if 0 < i then (load fs cfg s (s.m_ArchiveEntries.getD (i - 1) "") (-1)).state
        else s
      else s
    | none => s

/-- The method `ImageList::go_first`. -/
def go_first (cfg : Settings) (s : ImageList) : ImageList := (set_current cfg s 0 false).1

/-- The method `ImageList::go_last`. -/
def go_last (cfg : Settings) (s : ImageList) : ImageList :=
  (set_current cfg s (subSz s.m_Images.length 1) false).1

/-! ## Reachable states and concrete inputs -/

/-- Whether `load` gets as far as listing a directory for `path`: the path exists and is a
directory, an image, or an archive that could be extracted. -/
def opens_directory (fs : FileSystem) (path : String) : Bool :=
  fs.file_exists path &&
    (fs.is_dir path || fs.image_is_valid path ||
      (fs.has_extractor path && !(fs.extracted_path path).isEmpty))

/-- The item sequence, the current index, the stored window and the two thread pointers of
`t` are those of `s`. -/
def SameCollection (s t : ImageList) : Prop :=
  t.m_Images = s.m_Images ∧ t.m_Index = s.m_Index ∧ t.m_Cache = s.m_Cache ∧
    t.m_CacheThread = s.m_CacheThread ∧ t.m_ThumbnailThread = s.m_ThumbnailThread

/-- The current index is a position of the collection, or the collection is empty and the
index is 0. -/
def IndexOk (s : ImageList) : Prop :=
  s.m_Index < s.m_Images.length ∨ (s.m_Images = [] ∧ s.m_Index = 0)

/-- Invariant of the loop of `update_cache` once the first half of the body has run for
`i = 1 .. kf` and the second half for `i = 1 .. kb`: the counters are bounded, `cache` holds
`index` and no position twice, and every element is `index`, a forward neighbour, a backward
neighbour, a forward compensation (beyond `index + c`), a backward compensation (before
`index - c`), or a wrapped backward compensation (from `2 ^ 63` on, possible only when
`c` exceeds `2 ^ 30`). -/
def WindowInv (index size c kf kb : Nat) (st : CacheLoop) : Prop :=
  st.ncount ≤ kf ∧ st.pcount ≤ kb ∧ st.cache.Nodup ∧ index ∈ st.cache ∧
  ∀ x ∈ st.cache,
    x = index ∨
    (index < x ∧ x ≤ index + kf ∧ x < size) ∨
    (x < index ∧ index ≤ x + kb) ∨
    (index + c < x ∧ x + st.pcount ≤ index + c + kb ∧ x < size) ∨
    (x + c < index ∧ index + st.ncount ≤ x + c + kf ∧ size ≤ index + kf) ∨
    (2 ^ 63 ≤ x ∧ 2 ^ 64 + index + st.ncount ≤ x + c + kf ∧ size ≤ index + kf ∧
      2 ^ 31 + index < kf + c)

/-- Counting invariant of the loop of `update_cache` for collections of at most `2 ^ 31`
items, once the first half of the body has run for `i = 1 .. kf` and the second half for
`i = 1 .. kb`: the counters and the length of `cache` in closed form. The five summands
count `index`, the forward neighbours, the backward neighbours, the backward
compensations and the forward compensations. -/
def WindowCount (index size c kf kb : Nat) (st : CacheLoop) : Prop :=
  st.ncount = min kf (size - 1 - index) ∧ st.pcount = min kb index ∧
  st.cache.length =
    1 + min kf (size - 1 - index) + min kb index
      + (min kf (index - c) - min kf (size - 1 - index))
      + (min kb (size - 1 - index - c) - min kb index)

/-- States reached from the constructor by `load`, `go_next`, `go_previous`, `go_first`,
`go_last`, remote appends and `clear`, where a successful `load` was given an `index`
argument that is `-1` or the position of an entry, and `go_last` is called on a collection
that is not empty. -/
inductive Reachable : ImageList → Prop
  | fresh : Reachable ImageList.fresh
  | load (fs : FileSystem) (cfg : Settings) (s : ImageList) (path : String) (index : Int) :
      Reachable s →
      ((load fs cfg s path index).ok = true →
        index = -1 ∨ (0 ≤ index ∧ index < (load fs cfg s path index).state.m_Images.length)) →
      Reachable (load fs cfg s path index).state
  | go_next (fs : FileSystem) (cfg : Settings) (s : ImageList) :
      Reachable s → Reachable (go_next fs cfg s)
  | go_previous (fs : FileSystem) (cfg : Settings) (s : ImageList) :
      Reachable s → Reachable (go_previous fs cfg s)
  | go_first (cfg : Settings) (s : ImageList) : Reachable s → Reachable (go_first cfg s)
  | go_last (cfg : Settings) (s : ImageList) :
      Reachable s → s.m_Images ≠ [] → Reachable (go_last cfg s)
  | append (cfg : Settings) (s : ImageList) (posts : List Image) :
      Reachable s → Reachable (load_posts cfg s posts)
  | clear (s : ImageList) : Reachable s → Reachable (clear s)

/-- A file system with a directory `pics` holding one image, an empty directory `void`, and
two archives `book.zip` and `tome.zip` in the working directory that both extract to `pics`. -/
def smallDisk : FileSystem where
  file_exists := fun p => p = "pics" ∨ p = "void" ∨ p = "book.zip" ∨ p = "tome.zip"
  is_dir := fun p => p = "pics" ∨ p = "void"
  dir_list := fun p =>
    if p = "pics" then ["a.png"] else if p = "." then ["book.zip", "tome.zip"] else []
  build_filename := fun d n => if d = "." then n else d ++ "/" ++ n
  dirname := fun _ => "."
  image_is_valid := fun p => p = "pics/a.png"
  archive_is_valid := fun p => p = "book.zip" ∨ p = "tome.zip"
  has_extractor := fun p => p = "book.zip" ∨ p = "tome.zip"
  extracted_path := fun p => if p = "book.zip" ∨ p = "tome.zip" then "pics" else ""
  natural_less := fun a b => decide (a.data < b.data)

/-- Settings with a cache size of 2. -/
def cacheTwo : Settings := { CacheSize := 2, AutoOpenArchive := true, BooruLimit := 100 }

/-- A collection of `n` items on which `set_current` has not been called yet. -/
def collection (n : Nat) : ImageList :=
  { ImageList.fresh with m_Images := List.replicate n "img" }

/-! # Theorems -/

/-! ## Basic facts -/

theorem cancel_cache_images (s : ImageList) : (cancel_cache s).m_Images = s.m_Images := by
  unfold cancel_cache; split <;> rfl

theorem cancel_cache_index (s : ImageList) : (cancel_cache s).m_Index = s.m_Index := by
  unfold cancel_cache; split <;> rfl

theorem cancel_cache_archive (s : ImageList) : (cancel_cache s).m_Archive = s.m_Archive := by
  unfold cancel_cache; split <;> rfl

theorem cancel_cache_thumbnail (s : ImageList) :
    (cancel_cache s).m_ThumbnailThread = s.m_ThumbnailThread := by
  unfold cancel_cache; split <;> rfl

theorem cancel_cache_thread (s : ImageList) : (cancel_cache s).m_CacheThread = none := by
  unfold cancel_cache; split
  · rfl
  · assumption

theorem update_cache_images (cfg : Settings) (s : ImageList) :
    (update_cache cfg s).1.m_Images = s.m_Images := by
  simp [update_cache, cancel_cache_images]

theorem update_cache_index (cfg : Settings) (s : ImageList) :
    (update_cache cfg s).1.m_Index = s.m_Index := by
  simp [update_cache, cancel_cache_index]

theorem update_cache_thumbnail (cfg : Settings) (s : ImageList) :
    (update_cache cfg s).1.m_ThumbnailThread = s.m_ThumbnailThread := by
  simp [update_cache, cancel_cache_thumbnail]

theorem update_cache_cache (cfg : Settings) (s : ImageList) :
    (update_cache cfg s).1.m_Cache =
      stdSort (priorityLess s.m_Index)
        (if s.m_Cache.isEmpty then window s.m_Index cfg.CacheSize s.m_Images.length
         else stdSort (fun a b => decide (a < b))
           (window s.m_Index cfg.CacheSize s.m_Images.length)) := by
  simp [update_cache]

theorem update_cache_released (cfg : Settings) (s : ImageList) :
    (update_cache cfg s).2 =
      if s.m_Cache.isEmpty then []
      else set_difference (stdSort (fun a b => decide (a < b)) s.m_Cache)
        (stdSort (fun a b => decide (a < b))
          (window s.m_Index cfg.CacheSize s.m_Images.length)) := by
  by_cases h : s.m_Cache = [] <;> simp [update_cache, h]

theorem set_current_programmatic (cfg : Settings) (s : ImageList) (i : Nat) :
    set_current cfg s i false = update_cache cfg { s with m_Index := i } := by
  simp [set_current]

theorem set_current_images (cfg : Settings) (s : ImageList) (i : Nat) (fw : Bool) :
    (set_current cfg s i fw).1.m_Images = s.m_Images := by
  unfold set_current; split
  · rfl
  · rw [update_cache_images]

theorem set_current_index (cfg : Settings) (s : ImageList) (i : Nat) (fw : Bool) :
    (set_current cfg s i fw).1.m_Index = i := by
  unfold set_current; split
  · rename_i h; exact h.1.symm
  · rw [update_cache_index]

theorem set_current_thumbnail (cfg : Settings) (s : ImageList) (i : Nat) (fw : Bool) :
    (set_current cfg s i fw).1.m_ThumbnailThread = s.m_ThumbnailThread := by
  unfold set_current; split
  · rfl
  · rw [update_cache_thumbnail]

/-- The sibling path: when `clear` reaches `m_Images.clear()` no thread is outstanding. -/
theorem clear_join_threads (s : ImageList) :
    (clear_join s).m_CacheThread = none ∧ (clear_join s).m_ThumbnailThread = none :=
  ⟨cancel_cache_thread s, rfl⟩

/-! ## The sort key in double precision -/

theorem doubleShift_of_range (k : Nat) : ∀ (fuel n : Nat), 2 ^ 52 * 2 ^ k ≤ n →
    n < 2 ^ 53 * 2 ^ k → k ≤ fuel → doubleShift fuel n = k := by
  induction k with
  | zero =>
    intro fuel n _ h2 _
    cases fuel with
    | zero => rfl
    | succ f =>
      unfold doubleShift
      rw [if_pos (by omega)]
  | succ k ih =>
    intro fuel n h1 h2 hf
    cases fuel with
    | zero => omega
    | succ f =>
      have hp : 0 < 2 ^ k := Nat.two_pow_pos k
      rw [Nat.pow_succ] at h1 h2
      unfold doubleShift
      rw [if_neg (by omega), ih f (n / 2) (by omega) (by omega) (by omega)]

theorem toDouble_below_two_pow_64 (d : Nat) (h1 : 1 ≤ d) (h2 : d ≤ 1024) :
    toDouble (2 ^ 64 - d) = 2 ^ 64 := by
  unfold toDouble
  rw [doubleShift_of_range 11 _ _ (by omega) (by omega) (by omega)]
  dsimp only
  rw [if_pos (by omega)]
  omega

theorem toDouble_above_ten_pow_18 (d : Nat) (h : d ≤ 64) :
    toDouble (10 ^ 18 + d) = 10 ^ 18 := by
  unfold toDouble
  rw [doubleShift_of_range 7 _ _ (by omega) (by omega) (by omega)]
  dsimp only
  rw [if_neg (by omega)]
  omega

theorem doubleShift_small (fuel n : Nat) (h : n < 2 ^ 53) : doubleShift fuel n = 0 := by
  cases fuel with
  | zero => rfl
  | succ f =>
    unfold doubleShift
    rw [if_pos h]

theorem toDouble_exact (n : Nat) (h : n < 2 ^ 53) : toDouble n = n := by
  unfold toDouble
  rw [doubleShift_small n n h]
  dsimp only
  rw [if_neg (by omega)]
  omega

/-- The sort key of every position up to 1024 places below the index is the same `double`,
`2 ^ 64 + 1e18`: the comparator keeps no trace of the distance. -/
theorem sortKey_below_index (index a : Nat) (ha : a < index) (hd : index ≤ a + 1024) :
    sortKey index a = 2 ^ 64 + 10 ^ 18 := by
  unfold sortKey
  rw [if_pos ha]
  have h1 : subSz a index = 2 ^ 64 - (index - a) := by unfold subSz; omega
  rw [h1, toDouble_below_two_pow_64 _ (by omega) (by omega)]
  decide

/-- The same under the signed reading of `std::abs`: every position up to 64 places below
the index gets the key `1e18`. -/
theorem sortKeySigned_below_index (index a : Nat) (ha : a < index) (hd : index ≤ a + 64) :
    sortKeySigned index a = 10 ^ 18 := by
  unfold sortKeySigned
  rw [if_pos ha, toDouble_exact (index - a) (by omega), Nat.add_comm,
    toDouble_above_ten_pow_18 _ (by omega)]

/-- The comparator of `update_cache` orders no two positions that lie up to 1024 places
below the index. -/
theorem priorityLess_below_index (index a b : Nat)
    (ha : a < index) (hb : b < index) (hda : index ≤ a + 1024) (hdb : index ≤ b + 1024) :
    priorityLess index a b = false := by
  unfold priorityLess
  rw [sortKey_below_index index a ha hda, sortKey_below_index index b hb hdb]
  decide

/-! ## Scenarios of the cache window (C9, C10, C2) -/

/-- C9, as stated, fails: in a collection of 11 items with cacheSize = 2 the window stored
by `set_current(4)` is not the set {4,5,6,7,3,2,1}, and the following `set_current(9)` does
not evict exactly {1,2,3}. -/
theorem window_scenario_as_stated_fails :
    (¬ ∀ x, x ∈ (set_current cacheTwo (collection 11) 4 false).1.m_Cache ↔
        x ∈ [4, 5, 6, 7, 3, 2, 1]) ∧
    (¬ ∀ x, x ∈ (set_current cacheTwo
          (set_current cacheTwo (collection 11) 4 false).1 9 false).2 ↔ x ∈ [1, 2, 3]) := by
  constructor
  · intro h
    exact absurd ((h 7).2 (by decide)) (by decide)
  · intro h
    exact absurd ((h 1).2 (by decide)) (by decide)

/-- C9, amended: in a collection of 11 items, with cacheSize = 2 the window stored by
`set_current(4)` holds exactly the positions 2..6 and the following `set_current(9)` calls
`reset_pixbuf` on exactly 2, 3, 4, 5; the window of positions 1..7 and the eviction of
exactly 1, 2, 3 are what cacheSize = 3 gives. -/
theorem window_scenario (s : ImageList) (a : Bool) (l : Nat)
    (h : s.m_Images.length = 11) :
    ((set_current ⟨2, a, l⟩ s 4 false).1.m_Cache.Perm [2, 3, 4, 5, 6] ∧
      (set_current ⟨2, a, l⟩ (set_current ⟨2, a, l⟩ s 4 false).1 9 false).2 = [2, 3, 4, 5]) ∧
    ((set_current ⟨3, a, l⟩ s 4 false).1.m_Cache.Perm [1, 2, 3, 4, 5, 6, 7] ∧
      (set_current ⟨3, a, l⟩ (set_current ⟨3, a, l⟩ s 4 false).1 9 false).2 = [1, 2, 3]) := by
  have h2 : (set_current ⟨2, a, l⟩ s 4 false).1.m_Cache = [4, 5, 6, 3, 2] ∨
      (set_current ⟨2, a, l⟩ s 4 false).1.m_Cache = [4, 5, 6, 2, 3] := by
    rw [set_current_programmatic, update_cache_cache]
    dsimp only
    rw [h]
    by_cases he : s.m_Cache.isEmpty = true
    · left; rw [if_pos he]; decide
    · right; rw [if_neg he]; decide
  have h3 : (set_current ⟨3, a, l⟩ s 4 false).1.m_Cache = [4, 5, 6, 7, 3, 2, 1] ∨
      (set_current ⟨3, a, l⟩ s 4 false).1.m_Cache = [4, 5, 6, 7, 1, 2, 3] := by
    rw [set_current_programmatic, update_cache_cache]
    dsimp only
    rw [h]
    by_cases he : s.m_Cache.isEmpty = true
    · left; rw [if_pos he]; decide
    · right; rw [if_neg he]; decide
  refine ⟨⟨?_, ?_⟩, ⟨?_, ?_⟩⟩
  · rcases h2 with h2 | h2 <;> rw [h2] <;> decide
  · rw [set_current_programmatic, update_cache_released]
    dsimp only
    rcases h2 with h2 | h2 <;> rw [set_current_images, h2, h] <;> decide
  · rcases h3 with h3 | h3 <;> rw [h3] <;> decide
  · rw [set_current_programmatic, update_cache_released]
    dsimp only
    rcases h3 with h3 | h3 <;> rw [set_current_images, h3, h] <;> decide

/-- Witness of `window_scenario`: the collection of 11 items just created. -/
theorem window_scenario_witness :
    ((set_current ⟨2, true, 0⟩ (collection 11) 4 false).1.m_Cache.Perm [2, 3, 4, 5, 6] ∧
      (set_current ⟨2, true, 0⟩ (set_current ⟨2, true, 0⟩ (collection 11) 4 false).1 9 false).2
        = [2, 3, 4, 5]) ∧
    ((set_current ⟨3, true, 0⟩ (collection 11) 4 false).1.m_Cache.Perm [1, 2, 3, 4, 5, 6, 7] ∧
      (set_current ⟨3, true, 0⟩ (set_current ⟨3, true, 0⟩ (collection 11) 4 false).1 9 false).2
        = [1, 2, 3]) :=
  window_scenario (collection 11) true 0 (by decide)

/-- C10 on the code: for 11 items, cacheSize = 2 and index 9 the loop of `update_cache`
builds 9, 10, 8, 6, 7; the comparator gives the positions 8, 7 and 6 the same key (the
`double` nearest to `2 ^ 64 + 1e18`, or `1e18` itself when `std::abs` yields the distance),
so it orders none of them before another, and the list stored is 9, 10, 8, 6, 7 on a
collection without a stored window and 9, 10, 6, 7, 8 after a previous `set_current(4)`:
not the documented 9, 10, 8, 7, 6. -/
theorem stored_window_at_nine :
    window 9 2 11 = [9, 10, 8, 6, 7] ∧
    (sortKey 9 8 = sortKey 9 7 ∧ sortKey 9 7 = sortKey 9 6) ∧
    (sortKeySigned 9 8 = sortKeySigned 9 7 ∧ sortKeySigned 9 7 = sortKeySigned 9 6) ∧
    (priorityLess 9 7 6 = false ∧ priorityLess 9 8 7 = false ∧ priorityLess 9 8 6 = false) ∧
    (set_current cacheTwo (collection 11) 9 false).1.m_Cache = [9, 10, 8, 6, 7] ∧
    (set_current cacheTwo (set_current cacheTwo (collection 11) 4 false).1 9 false).1.m_Cache
      = [9, 10, 6, 7, 8] := by
  decide

/-- C2 on the code: with 11 items and cacheSize = 2, `set_current(4)` followed by
`set_current(5)` stores 5, 6, 7, 3, 4: position 3 (distance 2) precedes position 4
(distance 1), because the comparator gives both the same key. -/
theorem priority_order_after_step :
    (set_current cacheTwo (set_current cacheTwo (collection 11) 4 false).1 5 false).1.m_Cache
      = [5, 6, 7, 3, 4] ∧
    sortKey 5 4 = sortKey 5 3 ∧ sortKeySigned 5 4 = sortKeySigned 5 3 ∧
    priorityLess 5 4 3 = false := by
  decide

/-! ## Sorting -/

theorem linearInsert_perm {α : Type} (comp : α → α → Bool) (v : α) (l : List α) :
    (linearInsert comp v l).Perm (v :: l) := by
  induction l with
  | nil => exact List.Perm.refl _
  | cons e es ih =>
    unfold linearInsert
    split
    · exact List.Perm.refl _
    · exact (List.Perm.cons e ih).trans (List.Perm.swap v e es)

theorem foldl_linearInsert_perm {α : Type} (comp : α → α → Bool) (l acc : List α) :
    (l.foldl (fun sorted v => linearInsert comp v sorted) acc).Perm (acc ++ l) := by
  induction l generalizing acc with
  | nil => simp
  | cons v vs ih =>
    rw [List.foldl_cons]
    refine (ih _).trans ?_
    refine (List.Perm.append_right vs (linearInsert_perm comp v acc)).trans ?_
    simpa using (@List.perm_middle _ v acc vs).symm

theorem final_insertion_sort_perm {α : Type} (comp : α → α → Bool) (l : List α) :
    (final_insertion_sort comp l).Perm l := by
  simpa [final_insertion_sort] using foldl_linearInsert_perm comp l []

theorem set_of_getElem? {α : Type} (l : List α) (i : Nat) (a : α) (h : l[i]? = some a) :
    l.set i a = l := by
  induction l generalizing i with
  | nil => rfl
  | cons b l ih =>
    cases i with
    | zero => simp at h; simp [h]
    | succ i => simp at h; simp [ih i h]

theorem lt_of_getElem? {α : Type} (l : List α) (i : Nat) (a : α) (h : l[i]? = some a) :
    i < l.length := by
  by_contra hn
  rw [List.getElem?_eq_none (by omega)] at h
  exact absurd h (by simp)

theorem cons_set_perm {α : Type} (l : List α) (c : Nat) (x v : α) (h : l[c]? = some x) :
    (x :: l.set c v).Perm (v :: l) := by
  induction l generalizing c with
  | nil => simp at h
  | cons a l ih =>
    cases c with
    | zero =>
      simp at h
      subst h
      exact List.Perm.swap _ _ _
    | succ c =>
      simp at h
      simp only [List.set_cons_succ]
      exact (List.Perm.swap _ _ _).trans (((ih c h).cons a).trans (List.Perm.swap _ _ _))

theorem set_move_perm {α : Type} (l : List α) (h c : Nat) (x v : α)
    (hc : l[c]? = some x) (hh : h < l.length) :
    ((l.set h x).set c v).Perm (l.set h v) := by
  induction l generalizing h c with
  | nil => simp at hh
  | cons a l ih =>
    cases h with
    | zero =>
      cases c with
      | zero => simp
      | succ c =>
        simp at hc
        simpa using cons_set_perm l c x v hc
    | succ h =>
      simp at hh
      cases c with
      | zero =>
        simp at hc
        subst hc
        simp only [List.set_cons_succ, List.set_cons_zero]
        have h1 : l[h]? = some l[h] := List.getElem?_eq_getElem hh
        have p1 := cons_set_perm l h l[h] a h1
        have p2 := cons_set_perm l h l[h] v h1
        exact (List.perm_cons l[h]).mp (((List.Perm.swap _ _ _).trans ((p1.cons v).trans
          ((List.Perm.swap _ _ _).trans (p2.symm.cons a)))).trans (List.Perm.swap _ _ _))
      | succ c =>
        simp at hc
        simp only [List.set_cons_succ]
        exact (ih h c hc hh).cons a

theorem iter_swap_perm {α : Type} (l : List α) (i j : Nat) : (iter_swap l i j).Perm l := by
  unfold iter_swap
  split
  · rename_i a b ha hb
    have := set_move_perm l i j b a hb (lt_of_getElem? l i a ha)
    rwa [set_of_getElem? l i a ha] at this
  · exact List.Perm.refl _

theorem iter_swap_length {α : Type} (l : List α) (i j : Nat) :
    (iter_swap l i j).length = l.length :=
  (iter_swap_perm l i j).length_eq

theorem move_median_to_first_perm {α : Type} (comp : α → α → Bool) (l : List α)
    (result a b c : Nat) : (move_median_to_first comp l result a b c).Perm l := by
  unfold move_median_to_first
  split
  · split_ifs <;> exact iter_swap_perm _ _ _
  · exact List.Perm.refl _

theorem unguarded_partition_perm {α : Type} (comp : α → α → Bool) (pivot fuel : Nat)
    (l : List α) (first last : Nat) :
    (unguarded_partition comp pivot fuel l first last).1.Perm l := by
  induction fuel generalizing l first last with
  | zero => exact List.Perm.refl _
  | succ fuel ih =>
    unfold unguarded_partition
    dsimp only
    split
    · exact (ih _ _ _).trans (iter_swap_perm _ _ _)
    · exact List.Perm.refl _

theorem unguarded_partition_pivot_perm {α : Type} (comp : α → α → Bool) (l : List α) :
    (unguarded_partition_pivot comp l).1.Perm l :=
  (unguarded_partition_perm comp 0 _ _ _ _).trans (move_median_to_first_perm comp l _ _ _ _)

theorem push_heap_perm {α : Type} (comp : α → α → Bool) (value : α) (topIndex fuel : Nat)
    (l : List α) (hole : Nat) (hh : hole < l.length) :
    (push_heap comp value topIndex fuel l hole).Perm (l.set hole value) := by
  induction fuel generalizing l hole with
  | zero => exact List.Perm.refl _
  | succ fuel ih =>
    unfold push_heap
    split
    · rename_i p hp
      split
      · refine (ih _ _ ?_).trans (set_move_perm l hole _ p value hp hh)
        rw [List.length_set]
        exact lt_of_getElem? l _ p hp
      · exact List.Perm.refl _
    · exact List.Perm.refl _

theorem siftHole_perm {α : Type} (comp : α → α → Bool) (len fuel : Nat) (value : α)
    (l : List α) (hole : Nat) (hh : hole < l.length) :
    (siftHole comp len fuel l hole).2 < (siftHole comp len fuel l hole).1.length ∧
    ((siftHole comp len fuel l hole).1.set (siftHole comp len fuel l hole).2 value).Perm
      (l.set hole value) := by
  induction fuel generalizing l hole with
  | zero => exact ⟨hh, List.Perm.refl _⟩
  | succ fuel ih =>
    unfold siftHole
    split
    · split
      · rename_i x y hx hy
        split
        · have h1 := ih (l.set hole y) (2 * (hole + 1) - 1)
            (by rw [List.length_set]; exact lt_of_getElem? l _ y hy)
          exact ⟨h1.1, h1.2.trans (set_move_perm l hole _ y value hy hh)⟩
        · have h1 := ih (l.set hole x) (2 * (hole + 1))
            (by rw [List.length_set]; exact lt_of_getElem? l _ x hx)
          exact ⟨h1.1, h1.2.trans (set_move_perm l hole _ x value hx hh)⟩
      · exact ⟨hh, List.Perm.refl _⟩
    · exact ⟨hh, List.Perm.refl _⟩

theorem lastChild_perm {α : Type} (len : Nat) (value : α) (l : List α) (hole : Nat)
    (hh : hole < l.length) :
    (lastChild len l hole).2 < (lastChild len l hole).1.length ∧
    ((lastChild len l hole).1.set (lastChild len l hole).2 value).Perm (l.set hole value) := by
  unfold lastChild
  split
  · split
    · rename_i y hy
      exact ⟨by rw [List.length_set]; exact lt_of_getElem? l _ y hy,
        set_move_perm l hole _ y value hy hh⟩
    · exact ⟨hh, List.Perm.refl _⟩
  · exact ⟨hh, List.Perm.refl _⟩

theorem adjust_heap_perm {α : Type} (comp : α → α → Bool) (l : List α) (holeIndex len : Nat)
    (value : α) (hh : holeIndex < l.length) :
    (adjust_heap comp l holeIndex len value).Perm (l.set holeIndex value) := by
  unfold adjust_heap
  dsimp only
  have h1 := siftHole_perm comp len len value l holeIndex hh
  have h2 := lastChild_perm len value _ _ h1.1
  exact ((push_heap_perm comp value holeIndex len _ _ h2.1).trans h2.2).trans h1.2

theorem pop_heap_perm {α : Type} (comp : α → α → Bool) (l : List α) (last result : Nat) :
    (pop_heap comp l last result).Perm l := by
  unfold pop_heap
  split
  · rename_i value top hv ht
    have hr := lt_of_getElem? l result value hv
    have h0 := lt_of_getElem? l 0 top ht
    refine (adjust_heap_perm comp _ 0 last value (by rw [List.length_set]; exact h0)).trans ?_
    have := set_move_perm l result 0 top value ht hr
    rwa [set_of_getElem? l result value hv] at this
  · exact List.Perm.refl _

theorem makeHeapFrom_perm {α : Type} (comp : α → α → Bool) (len parent : Nat) (l : List α) :
    (makeHeapFrom comp len parent l).Perm l := by
  induction parent generalizing l with
  | zero =>
    unfold makeHeapFrom
    split
    · rename_i v hv
      have := adjust_heap_perm comp l 0 len v (lt_of_getElem? l 0 v hv)
      rwa [set_of_getElem? l 0 v hv] at this
    · exact List.Perm.refl _
  | succ parent ih =>
    unfold makeHeapFrom
    split
    · rename_i v hv
      have := adjust_heap_perm comp l (parent + 1) len v (lt_of_getElem? l _ v hv)
      rw [set_of_getElem? l _ v hv] at this
      exact (ih _).trans this
    · exact List.Perm.refl _

theorem make_heap_perm {α : Type} (comp : α → α → Bool) (l : List α) :
    (make_heap comp l).Perm l := by
  unfold make_heap
  split
  · exact List.Perm.refl _
  · exact makeHeapFrom_perm comp _ _ l

theorem sort_heap_perm {α : Type} (comp : α → α → Bool) (last : Nat) (l : List α) :
    (sort_heap comp last l).Perm l := by
  induction last generalizing l with
  | zero => exact List.Perm.refl _
  | succ last ih =>
    unfold sort_heap
    split
    · exact (ih _).trans (pop_heap_perm comp l last last)
    · exact List.Perm.refl _

theorem heap_sort_perm {α : Type} (comp : α → α → Bool) (l : List α) :
    (heap_sort comp l).Perm l :=
  (sort_heap_perm comp _ _).trans (make_heap_perm comp l)

theorem introsort_loop_perm {α : Type} (comp : α → α → Bool) (depth : Nat) (l : List α) :
    (introsort_loop comp depth l).Perm l := by
  induction depth generalizing l with
  | zero =>
    unfold introsort_loop
    split
    · exact heap_sort_perm comp l
    · exact List.Perm.refl _
  | succ depth ih =>
    unfold introsort_loop
    split
    · dsimp only
      refine ((ih _).append (ih _)).trans ?_
      rw [List.take_append_drop]
      exact unguarded_partition_pivot_perm comp l
    · exact List.Perm.refl _

theorem stdSort_perm {α : Type} (comp : α → α → Bool) (l : List α) :
    (stdSort comp l).Perm l := by
  unfold stdSort
  split
  · exact List.Perm.refl _
  · exact (final_insertion_sort_perm comp _).trans (introsort_loop_perm comp _ l)

theorem stdSort_length {α : Type} (comp : α → α → Bool) (l : List α) :
    (stdSort comp l).length = l.length :=
  (stdSort_perm comp l).length_eq

theorem mem_stdSort {α : Type} (comp : α → α → Bool) (l : List α) (x : α) :
    x ∈ stdSort comp l ↔ x ∈ l :=
  (stdSort_perm comp l).mem_iff

/-! ## Directory listing -/

theorem imageEntriesStep_count (fs : FileSystem) (archive : Bool)
    (r : String → Nat → List String) (path : String) (acc : List String × List String × Nat)
    (name : String) : acc.2.2 ≤ (imageEntriesStep fs archive r path acc name).2.2 := by
  unfold imageEntriesStep
  dsimp only
  split <;> split <;> (dsimp only; omega)

theorem imageEntriesStep_congr (fs : FileSystem) (archive : Bool)
    (r1 r2 : String → Nat → List String) (path : String)
    (acc : List String × List String × Nat) (name : String)
    (h : ∀ e rc, acc.2.2 < rc → rc ≤ 10 → r1 e rc = r2 e rc) :
    imageEntriesStep fs archive r1 path acc name =
      imageEntriesStep fs archive r2 path acc name := by
  unfold imageEntriesStep
  dsimp only
  by_cases hg : archive = true ∧ fs.is_dir (fs.build_filename path name) = true ∧ acc.2.2 < 10
  · rw [if_pos hg, if_pos hg, h _ (acc.2.2 + 1) (by omega) (by omega)]
  · rw [if_neg hg, if_neg hg]

theorem imageEntriesFold_congr (fs : FileSystem) (archive : Bool)
    (r1 r2 : String → Nat → List String) (path : String) (recurseCount : Nat)
    (h : ∀ e rc, recurseCount < rc → rc ≤ 10 → r1 e rc = r2 e rc)
    (names : List String) (acc : List String × List String × Nat)
    (hacc : recurseCount ≤ acc.2.2) :
    names.foldl (imageEntriesStep fs archive r1 path) acc =
      names.foldl (imageEntriesStep fs archive r2 path) acc := by
  induction names generalizing acc with
  | nil => rfl
  | cons name names ih =>
    rw [List.foldl_cons, List.foldl_cons,
      imageEntriesStep_congr fs archive r1 r2 path acc name
        (fun e rc hlt hle => h e rc (by omega) hle)]
    exact ih _ (le_trans hacc (imageEntriesStep_count fs archive r2 path acc name))

theorem imageEntriesLoop_congr (fs : FileSystem) (archive : Bool)
    (r1 r2 : String → Nat → List String) (path : String) (recurseCount : Nat)
    (h : ∀ e rc, recurseCount < rc → rc ≤ 10 → r1 e rc = r2 e rc) :
    imageEntriesLoop fs archive r1 path recurseCount =
      imageEntriesLoop fs archive r2 path recurseCount := by
  unfold imageEntriesLoop
  rw [imageEntriesFold_congr fs archive r1 r2 path recurseCount h _ _ (le_refl _)]

/-- The nesting depth 10 given to `get_image_entries_depth` is never used up: any two depths
that cover `10 - recurseCount` give the same listing. -/
theorem get_image_entries_depth_stable (fs : FileSystem) (archive : Bool) (d1 d2 : Nat)
    (path : String) (recurseCount : Nat)
    (h1 : 10 ≤ recurseCount + d1) (h2 : 10 ≤ recurseCount + d2) :
    get_image_entries_depth fs archive d1 path recurseCount =
      get_image_entries_depth fs archive d2 path recurseCount := by
  induction d1 generalizing d2 path recurseCount with
  | zero =>
    cases d2 with
    | zero => rfl
    | succ d2 =>
      unfold get_image_entries_depth
      exact imageEntriesLoop_congr fs archive _ _ path recurseCount
        (fun e rc hlt hle => by omega)
  | succ d1 ih =>
    cases d2 with
    | zero =>
      unfold get_image_entries_depth
      exact imageEntriesLoop_congr fs archive _ _ path recurseCount
        (fun e rc hlt hle => by omega)
    | succ d2 =>
      unfold get_image_entries_depth
      exact imageEntriesLoop_congr fs archive _ _ path recurseCount
        (fun e rc hlt hle => ih d2 e rc (by omega) (by omega))

/-! ## Loading -/

theorem load_from_dir_failed (fs : FileSystem) (s0 : ImageList) (archive : Option String)
    (path dirPath : String) (index : Int) (e : String) (t : ImageList)
    (h : load_from_dir fs s0 archive path dirPath index = .inl (e, t)) :
    SameCollection s0 t ∧ (archive = none → t.m_ArchiveEntries = s0.m_ArchiveEntries) := by
  unfold load_from_dir at h
  simp only at h
  split at h
  · cases archive <;> simp at h <;> (obtain ⟨-, rfl⟩ := h; simp [SameCollection])
  · simp at h

theorem load_from_dir_ok (fs : FileSystem) (s0 : ImageList) (archive : Option String)
    (path dirPath : String) (index : Int) (entries : List String) (t : ImageList)
    (h : load_from_dir fs s0 archive path dirPath index = .inr (entries, t)) :
    entries ≠ [] ∧
      (t.m_Index < entries.length ∨ (index ≠ -1 ∧ t.m_Index = intToSz index)) := by
  unfold load_from_dir at h
  simp only at h
  split at h
  · simp at h
  · rename_i hne
    simp only [Sum.inr.injEq, Prod.mk.injEq] at h
    obtain ⟨rfl, rfl⟩ := h
    have hlen : 0 < (stdSort fs.natural_less
        (get_image_entries fs (match archive with
          | none => { s0 with m_Archive := none }
          | some a => { s0 with m_ArchiveEntries := get_archive_entries fs a }).m_Archive.isSome
          dirPath)).length := by
      rw [stdSort_length]
      exact List.length_pos.mpr (by simpa using hne)
    refine ⟨List.ne_nil_of_length_pos hlen, ?_⟩
    dsimp only
    split_ifs with h1 h2 h3
    · left; exact List.indexOf_lt_length.mpr h2
    · left; exact hlen
    · left; unfold subSz; omega
    · right; exact ⟨h3, rfl⟩

theorem load_select_failed (fs : FileSystem) (s : ImageList) (path : String) (index : Int)
    (e : String) (t : ImageList) (h : load_select fs s path index = .inl (e, t)) :
    SameCollection s t ∧ (opens_directory fs path = false → t = s) ∧
      (fs.is_dir path = true ∨ fs.image_is_valid path = true →
        t.m_ArchiveEntries = s.m_ArchiveEntries) := by
  have same : SameCollection s s := ⟨rfl, rfl, rfl, rfl, rfl⟩
  unfold load_select at h
  unfold opens_directory
  split_ifs at h with h1 h2 h3 h4 h5
  · have := load_from_dir_failed _ _ _ _ _ _ _ _ h
    exact ⟨this.1, by simp [h1, h2], fun _ => this.2 rfl⟩
  · have := load_from_dir_failed _ _ _ _ _ _ _ _ h
    exact ⟨this.1, by simp [h1, h3], fun _ => this.2 rfl⟩
  · simp only [Sum.inl.injEq, Prod.mk.injEq] at h
    obtain ⟨-, rfl⟩ := h
    exact ⟨same, fun _ => rfl, fun _ => rfl⟩
  · have := load_from_dir_failed _ _ _ _ _ _ _ _ h
    exact ⟨this.1, by simp [h1, h4, h5], fun hd => by simp [h2, h3] at hd⟩
  · simp only [Sum.inl.injEq, Prod.mk.injEq] at h
    obtain ⟨-, rfl⟩ := h
    exact ⟨same, fun _ => rfl, fun _ => rfl⟩
  · simp only [Sum.inl.injEq, Prod.mk.injEq] at h
    obtain ⟨-, rfl⟩ := h
    exact ⟨same, fun _ => rfl, fun _ => rfl⟩

theorem load_select_ok (fs : FileSystem) (s : ImageList) (path : String) (index : Int)
    (entries : List String) (t : ImageList)
    (h : load_select fs s path index = .inr (entries, t)) :
    entries ≠ [] ∧
      (t.m_Index < entries.length ∨ (index ≠ -1 ∧ t.m_Index = intToSz index)) := by
  unfold load_select at h
  split_ifs at h
  · exact load_from_dir_ok _ _ _ _ _ _ _ _ h
  · exact load_from_dir_ok _ _ _ _ _ _ _ _ h
  · exact load_from_dir_ok _ _ _ _ _ _ _ _ h

theorem load_failed (fs : FileSystem) (cfg : Settings) (s : ImageList) (path : String)
    (index : Int) (h : (load fs cfg s path index).ok = false) :
    SameCollection s (load fs cfg s path index).state ∧
      (opens_directory fs path = false → (load fs cfg s path index).state = s) ∧
      (fs.is_dir path = true ∨ fs.image_is_valid path = true →
        (load fs cfg s path index).state.m_ArchiveEntries = s.m_ArchiveEntries) := by
  unfold load at h ⊢
  cases hsel : load_select fs s path index with
  | inl r =>
    obtain ⟨e, t⟩ := r
    simpa using load_select_failed fs s path index e t hsel
  | inr r =>
    obtain ⟨entries, t⟩ := r
    rw [hsel] at h
    simp at h

theorem load_succeeded (fs : FileSystem) (cfg : Settings) (s : ImageList) (path : String)
    (index : Int) (h : (load fs cfg s path index).ok = true) :
    (load fs cfg s path index).state.m_Images ≠ [] ∧
      ((load fs cfg s path index).state.m_Index <
          (load fs cfg s path index).state.m_Images.length ∨
        (index ≠ -1 ∧ (load fs cfg s path index).state.m_Index = intToSz index)) := by
  unfold load at h ⊢
  cases hsel : load_select fs s path index with
  | inl r =>
    obtain ⟨e, t⟩ := r
    rw [hsel] at h
    simp at h
  | inr r =>
    obtain ⟨entries, t⟩ := r
    have := load_select_ok fs s path index entries t hsel
    simp only [set_current_images, set_current_index, cancel_cache_index]
    exact this

/-! ## Failing loads (C4) -/

/-- C5, as stated, fails: `load` of the directory `pics` (one image) with index argument 5
on a fresh controller returns true and leaves a non-empty collection with `m_Index = 5`;
and `go_last` on the empty fresh controller stores `size() - 1 = 2 ^ 64 - 1`, which a
remote append of one post turns into the index of a collection of one item. -/
theorem current_index_as_stated_fails :
    ((load smallDisk cacheTwo ImageList.fresh "pics" 5).ok = true ∧
      (load smallDisk cacheTwo ImageList.fresh "pics" 5).state.m_Images = ["pics/a.png"] ∧
      (load smallDisk cacheTwo ImageList.fresh "pics" 5).state.m_Index = 5 ∧
      ¬ ((load smallDisk cacheTwo ImageList.fresh "pics" 5).state.m_Images ≠ [] →
        (load smallDisk cacheTwo ImageList.fresh "pics" 5).state.m_Index <
          (load smallDisk cacheTwo ImageList.fresh "pics" 5).state.m_Images.length)) ∧
    ((load_posts cacheTwo (go_last cacheTwo ImageList.fresh) ["p0"]).m_Images = ["p0"] ∧
      (load_posts cacheTwo (go_last cacheTwo ImageList.fresh) ["p0"]).m_Index = 2 ^ 64 - 1) := by
  decide

theorem subSz_one_lt (n len : Nat) (h : n < len) (hn : n ≠ 0) : subSz n 1 < len := by
  unfold subSz; omega

theorem subSz_length_one (len : Nat) (h : 0 < len) : subSz len 1 < len := by
  unfold subSz; omega

theorem intToSz_lt (i : Int) (len : Nat) (h0 : 0 ≤ i) (h : i < len) : intToSz i < len := by
  unfold intToSz; omega

theorem set_current_indexOk (cfg : Settings) (s : ImageList) (i : Nat) (fw : Bool)
    (h : i < s.m_Images.length ∨ (s.m_Images = [] ∧ i = 0)) :
    IndexOk (set_current cfg s i fw).1 := by
  unfold IndexOk
  rw [set_current_index, set_current_images]
  exact h

theorem load_indexOk (fs : FileSystem) (cfg : Settings) (s : ImageList) (path : String)
    (index : Int) (ih : IndexOk s)
    (hidx : (load fs cfg s path index).ok = true →
      index = -1 ∨ (0 ≤ index ∧ index < (load fs cfg s path index).state.m_Images.length)) :
    IndexOk (load fs cfg s path index).state := by
  cases hok : (load fs cfg s path index).ok with
  | false =>
    obtain ⟨⟨h1, h2, -⟩, -⟩ := load_failed fs cfg s path index hok
    unfold IndexOk at ih ⊢
    rw [h1, h2]; exact ih
  | true =>
    left
    obtain ⟨-, h1 | ⟨hne, h1⟩⟩ := load_succeeded fs cfg s path index hok
    · exact h1
    · rcases hidx hok with h2 | ⟨h2, h3⟩
      · exact absurd h2 hne
      · rw [h1]; exact intToSz_lt _ _ h2 h3

theorem load_default_indexOk (fs : FileSystem) (cfg : Settings) (s : ImageList)
    (path : String) (ih : IndexOk s) : IndexOk (load fs cfg s path 0).state := by
  apply load_indexOk fs cfg s path 0 ih
  intro hok
  right
  have := (load_succeeded fs cfg s path 0 hok).1
  exact ⟨le_refl _, by exact_mod_cast List.length_pos.mpr this⟩

theorem go_next_indexOk (fs : FileSystem) (cfg : Settings) (s : ImageList) (ih : IndexOk s) :
    IndexOk (go_next fs cfg s) := by
  unfold go_next
  by_cases h1 : addSz s.m_Index 1 < s.m_Images.length
  · rw [if_pos h1]
    exact set_current_indexOk cfg s _ false (Or.inl h1)
  · rw [if_neg h1]
    cases harch : s.m_Archive with
    | none => exact ih
    | some a =>
      dsimp only
      by_cases h2 : cfg.AutoOpenArchive = true
      · rw [if_pos h2]
        by_cases h3 : List.indexOf a s.m_ArchiveEntries < subSz s.m_ArchiveEntries.length 1
        · rw [if_pos h3]
          exact load_default_indexOk fs cfg s _ ih
        · rw [if_neg h3]; exact ih
      · rw [if_neg h2]; exact ih

theorem go_previous_indexOk (fs : FileSystem) (cfg : Settings) (s : ImageList)
    (ih : IndexOk s) : IndexOk (go_previous fs cfg s) := by
  unfold go_previous
  by_cases h1 : s.m_Index ≠ 0
  · rw [if_pos h1]
    apply set_current_indexOk
    rcases ih with ih | ih
    · left; exact subSz_one_lt _ _ ih h1
    · exact absurd ih.2 h1
  · rw [if_neg h1]
    cases harch : s.m_Archive with
    | none => exact ih
    | some a =>
      dsimp only
      by_cases h2 : cfg.AutoOpenArchive = true
      · rw [if_pos h2]
        by_cases h3 : 0 < List.indexOf a s.m_ArchiveEntries
        · rw [if_pos h3]
          exact load_indexOk fs cfg s _ (-1) ih (fun _ => Or.inl rfl)
        · rw [if_neg h3]; exact ih
      · rw [if_neg h2]; exact ih

theorem go_first_indexOk (cfg : Settings) (s : ImageList) (ih : IndexOk s) :
    IndexOk (go_first cfg s) := by
  have h : 0 < s.m_Images.length ∨ (s.m_Images = [] ∧ 0 = 0) := by
    rcases ih with ih | ih
    · left; omega
    · right; exact ⟨ih.1, rfl⟩
  exact set_current_indexOk cfg s 0 false h

theorem go_last_indexOk (cfg : Settings) (s : ImageList) (hne : s.m_Images ≠ []) :
    IndexOk (go_last cfg s) := by
  have h : subSz s.m_Images.length 1 < s.m_Images.length :=
    subSz_length_one s.m_Images.length (List.length_pos.mpr hne)
  exact set_current_indexOk cfg s (subSz s.m_Images.length 1) false (Or.inl h)

theorem load_posts_indexOk (cfg : Settings) (s : ImageList) (posts : List Image)
    (ih : IndexOk s) : IndexOk (load_posts cfg s posts) := by
  have key : s.m_Index < (s.m_Images ++ posts).length ∨
      (s.m_Images ++ posts = [] ∧ s.m_Index = 0) := by
    rcases ih with ih | ih
    · left; rw [List.length_append]; omega
    · cases posts with
      | nil => right; simp [ih.1, ih.2]
      | cons p ps => left; simp [ih.1, ih.2]
  unfold load_posts
  dsimp only
  by_cases h : (s.m_Images ++ posts).length ≤ cfg.BooruLimit
  · rw [if_pos h]
    exact set_current_indexOk cfg _ _ false key
  · rw [if_neg h]
    exact key

/-- The invariant behind C5: every reachable state has a valid index or is empty with
index 0. -/
theorem reachable_indexOk (s : ImageList) (h : Reachable s) : IndexOk s := by
  induction h with
  | fresh => exact Or.inr ⟨rfl, rfl⟩
  | load fs cfg s path index _ hidx ih => exact load_indexOk fs cfg s path index ih hidx
  | go_next fs cfg s _ ih => exact go_next_indexOk fs cfg s ih
  | go_previous fs cfg s _ ih => exact go_previous_indexOk fs cfg s ih
  | go_first cfg s _ ih => exact go_first_indexOk cfg s ih
  | go_last cfg s _ hne _ => exact go_last_indexOk cfg s hne
  | append cfg s posts _ ih => exact load_posts_indexOk cfg s posts ih
  | clear s _ _ => exact Or.inr ⟨rfl, rfl⟩

/-- C5, amended: in every state reached from a freshly constructed controller by `load`
calls whose index argument, when the call succeeds, is -1 or the position of an entry,
`go_next`, `go_previous`, `go_first`, `go_last` on a non-empty collection, remote appends
and `clear`, if the collection is non-empty then `m_Index` is below its length. -/
theorem current_index_valid (s : ImageList) (h : Reachable s) (hne : s.m_Images ≠ []) :
    s.m_Index < s.m_Images.length := by
  rcases reachable_indexOk s h with h1 | h1
  · exact h1
  · exact absurd h1.1 hne

/-- Witness of `current_index_valid`: the directory `pics` loaded with index -1. -/
theorem current_index_valid_witness :
    Reachable (load smallDisk cacheTwo ImageList.fresh "pics" (-1)).state ∧
    (load smallDisk cacheTwo ImageList.fresh "pics" (-1)).state.m_Images ≠ [] ∧
    (load smallDisk cacheTwo ImageList.fresh "pics" (-1)).state.m_Index <
      (load smallDisk cacheTwo ImageList.fresh "pics" (-1)).state.m_Images.length :=
  ⟨Reachable.load _ _ _ _ _ Reachable.fresh (fun _ => Or.inl rfl), by decide,
    current_index_valid _
      (Reachable.load _ _ _ _ _ Reachable.fresh (fun _ => Or.inl rfl)) (by decide)⟩

/-! ## Thumbnail jobs after an append (C6) -/

/-- C6, as stated, fails: a remote collection holding one item (m = 1) to which one post is
appended (k = 1) starts a thumbnail run that submits jobs for the indices 0 and 1, the old
index 0 included. -/
theorem append_resubmits_old_index :
    (load_posts cacheTwo ImageList.fresh ["p0"]).m_Images.length = 1 ∧
    (load_posts cacheTwo (load_posts cacheTwo ImageList.fresh ["p0"]) ["p1"]).m_ThumbnailThread
      = some [0, 1] := by
  decide

/-- C6, amended: when `load(posts, page)` appends k posts to a collection that holds m
items, the thumbnail run it starts submits a job for every index 0, 1, ..., m+k-1, the
indices of the old items included. -/
theorem append_thumbnail_jobs (cfg : Settings) (s : ImageList) (posts : List Image) :
    (load_posts cfg s posts).m_ThumbnailThread =
      some (List.range (s.m_Images.length + posts.length)) := by
  unfold load_posts
  dsimp only
  by_cases h : (s.m_Images ++ posts).length ≤ cfg.BooruLimit
  · rw [if_pos h, set_current_thumbnail]
    simp [load_thumbnails]
  · rw [if_neg h]
    simp [load_thumbnails]

/-! ## Threads at a collection swap (C7) -/

/-- C7 on the code: after `load` of the directory `pics`, whose thumbnail thread has not
been joined by `on_thumbnails_loaded` yet, a second `load` reaches `m_Images.clear()` with
the cache thread joined but the thumbnail thread pointer still set; the same holds for
the `load` of `tome.zip` that `go_next` issues at the end of `book.zip`. -/
theorem load_swaps_with_thumbnail_thread :
    ((load_at_clear smallDisk (load smallDisk cacheTwo ImageList.fresh "pics" 0).state
        "pics" 0).map (fun s => (s.m_CacheThread, s.m_ThumbnailThread))
      = some (none, some [0])) ∧
    (go_next smallDisk cacheTwo (load smallDisk cacheTwo ImageList.fresh "book.zip" 0).state
      = (load smallDisk cacheTwo (load smallDisk cacheTwo ImageList.fresh "book.zip" 0).state
          "tome.zip" 0).state) ∧
    ((load_at_clear smallDisk (load smallDisk cacheTwo ImageList.fresh "book.zip" 0).state
        "tome.zip" 0).map (fun s => (s.m_CacheThread, s.m_ThumbnailThread))
      = some (none, some [0])) := by
  decide

/-! ## The loop of `update_cache` -/

theorem cacheLoopUpTo_zero (index size c : Nat) :
    cacheLoopUpTo index size c 0 = ⟨[index], 0, 0⟩ := by
  unfold cacheLoopUpTo
  rw [List.range'_zero, List.foldl_nil]

theorem cacheLoopUpTo_succ (index size c k : Nat) :
    cacheLoopUpTo index size c (k + 1) =
      cacheIter index size c (cacheLoopUpTo index size c k) (k + 1) := by
  unfold cacheLoopUpTo
  rw [List.range'_concat, List.foldl_append, List.foldl_cons, List.foldl_nil, Nat.one_mul,
    Nat.add_comm 1 k]

theorem nodup_concat {l : List Nat} {y : Nat} (h : l.Nodup) (hy : y ∉ l) :
    (l ++ [y]).Nodup := by
  rw [List.nodup_append]
  refine ⟨h, List.nodup_singleton y, ?_⟩
  intro a ha hb
  rw [List.mem_singleton] at hb
  exact hy (hb ▸ ha)

theorem windowInv_forward (index size c k kb : Nat) (st : CacheLoop)
    (hidx : index < size) (hsize : size ≤ 2 ^ 63) (hc : c < 2 ^ 31)
    (hk : k + 1 ≤ c) (hkb : kb ≤ c) (h : WindowInv index size c k kb st) :
    WindowInv index size c (k + 1) kb (cacheIterForward index size c st (k + 1)) := by
  obtain ⟨hn, hp, hnd, hmem, hcls⟩ := h
  unfold cacheIterForward
  by_cases h1 : addSz index (k + 1) < size
  · rw [if_pos h1]
    have hy : addSz index (k + 1) = index + (k + 1) := by unfold addSz; omega
    rw [hy] at h1 ⊢
    have hn1 : addSz st.ncount 1 = st.ncount + 1 := by unfold addSz; omega
    rw [hn1]
    refine ⟨by dsimp only; omega, hp, nodup_concat hnd ?_, List.mem_append_left _ hmem, ?_⟩
    · intro hin
      have := hcls _ hin
      omega
    · intro x hx
      dsimp only at hx ⊢
      rw [List.mem_append, List.mem_singleton] at hx
      rcases hx with hx | hx
      · have := hcls x hx
        omega
      · omega
  · rw [if_neg h1]
    have hy : addSz index (k + 1) = index + (k + 1) := by unfold addSz; omega
    rw [hy] at h1
    by_cases h2 : intNonneg (subSz (subSz index (k + 1)) c) = true
    · rw [if_pos h2]
      have hval : (k + 1 + c ≤ index ∧
            addSz (subSz (subSz index (k + 1)) c) st.ncount = index - (k + 1) - c + st.ncount) ∨
          (index < k + 1 + c ∧ 2 ^ 63 ≤ addSz (subSz (subSz index (k + 1)) c) st.ncount ∧
            addSz (subSz (subSz index (k + 1)) c) st.ncount + (k + 1 + c - index)
              = 2 ^ 64 + st.ncount ∧ 2 ^ 31 + index < k + 1 + c) := by
        unfold intNonneg at h2
        simp only [decide_eq_true_eq] at h2
        unfold subSz addSz at *
        omega
      generalize addSz (subSz (subSz index (k + 1)) c) st.ncount = y at hval ⊢
      refine ⟨by dsimp only; omega, hp, nodup_concat hnd ?_, List.mem_append_left _ hmem, ?_⟩
      · intro hin
        have := hcls _ hin
        omega
      · intro x hx
        dsimp only at hx ⊢
        rw [List.mem_append, List.mem_singleton] at hx
        rcases hx with hx | hx
        · have := hcls x hx
          omega
        · omega
    · rw [if_neg h2]
      refine ⟨by omega, hp, hnd, hmem, ?_⟩
      intro x hx
      have := hcls x hx
      omega

theorem windowInv_backward (index size c kf k : Nat) (st : CacheLoop)
    (hidx : index < size) (hsize : size ≤ 2 ^ 63) (hc : c < 2 ^ 31)
    (hk : k + 1 ≤ c) (hkf : kf ≤ c) (h : WindowInv index size c kf k st) :
    WindowInv index size c kf (k + 1) (cacheIterBackward index size c st (k + 1)) := by
  obtain ⟨hn, hp, hnd, hmem, hcls⟩ := h
  unfold cacheIterBackward
  by_cases h1 : intNonneg (subSz index (k + 1)) = true
  · rw [if_pos h1]
    have hb : k + 1 ≤ index ∧ subSz index (k + 1) = index - (k + 1) := by
      unfold intNonneg at h1
      simp only [decide_eq_true_eq] at h1
      unfold subSz at *
      omega
    have hle := hb.1
    rw [hb.2]
    have hp1 : addSz st.pcount 1 = st.pcount + 1 := by unfold addSz; omega
    rw [hp1]
    refine ⟨hn, by dsimp only; omega, nodup_concat hnd ?_, List.mem_append_left _ hmem, ?_⟩
    · intro hin
      have := hcls _ hin
      omega
    · intro x hx
      dsimp only at hx ⊢
      rw [List.mem_append, List.mem_singleton] at hx
      rcases hx with hx | hx
      · have := hcls x hx
        omega
      · omega
  · rw [if_neg h1]
    have hy : addSz (addSz index (k + 1)) c = index + (k + 1) + c := by unfold addSz; omega
    rw [hy]
    by_cases h2 : index + (k + 1) + c < size
    · rw [if_pos h2]
      have hval : subSz (index + (k + 1) + c) st.pcount = index + (k + 1) + c - st.pcount := by
        unfold subSz; omega
      rw [hval]
      refine ⟨hn, by dsimp only; omega, nodup_concat hnd ?_, List.mem_append_left _ hmem, ?_⟩
      · intro hin
        have := hcls _ hin
        omega
      · intro x hx
        dsimp only at hx ⊢
        rw [List.mem_append, List.mem_singleton] at hx
        rcases hx with hx | hx
        · have := hcls x hx
          omega
        · omega
    · rw [if_neg h2]
      refine ⟨hn, by omega, hnd, hmem, ?_⟩
      intro x hx
      have := hcls x hx
      omega

theorem windowInv_loop (index size c : Nat)
    (hidx : index < size) (hsize : size ≤ 2 ^ 63) (hc : c < 2 ^ 31) (k : Nat) (hk : k ≤ c) :
    WindowInv index size c k k (cacheLoopUpTo index size c k) := by
  induction k with
  | zero =>
    rw [cacheLoopUpTo_zero]
    refine ⟨le_refl _, le_refl _, List.nodup_singleton _, List.mem_singleton.mpr rfl, ?_⟩
    intro x hx
    left
    exact List.mem_singleton.mp hx
  | succ k ih =>
    rw [cacheLoopUpTo_succ]
    unfold cacheIter
    exact windowInv_backward index size c (k + 1) k _ hidx hsize hc hk (by omega)
      (windowInv_forward index size c k k _ hidx hsize hc hk (by omega) (ih (by omega)))

theorem window_eq_loop (index c size : Nat) (hc : c < 2 ^ 31) :
    window index c size = (cacheLoopUpTo index size c c).cache := by
  unfold window
  have : addSz c 1 - 1 = c := by unfold addSz; omega
  rw [this]

theorem window_nodup (index c size : Nat)
    (hidx : index < size) (hsize : size ≤ 2 ^ 63) (hc : c < 2 ^ 31) :
    (window index c size).Nodup := by
  rw [window_eq_loop index c size hc]
  exact (windowInv_loop index size c hidx hsize hc c (le_refl _)).2.2.1

/-- With a cache size of at most `2 ^ 30` every element of the window is a position of the
collection. -/
theorem window_mem_lt (index c size : Nat)
    (hidx : index < size) (hsize : size ≤ 2 ^ 63) (hc : c ≤ 2 ^ 30) (x : Nat)
    (hx : x ∈ window index c size) : x < size := by
  rw [window_eq_loop index c size (by omega)] at hx
  have := (windowInv_loop index size c hidx hsize (by omega) c (le_refl _)).2.2.2.2 x hx
  omega

theorem index_mem_window (index c size : Nat)
    (hidx : index < size) (hsize : size ≤ 2 ^ 63) (hc : c < 2 ^ 31) :
    index ∈ window index c size := by
  rw [window_eq_loop index c size hc]
  exact (windowInv_loop index size c hidx hsize hc c (le_refl _)).2.2.2.1

/-! ## Ascending sort and set difference -/

theorem linearInsert_lt_sorted (v : Nat) (l : List Nat) (h : l.Sorted (· ≤ ·)) :
    (linearInsert (fun a b => decide (a < b)) v l).Sorted (· ≤ ·) := by
  induction l with
  | nil => exact List.sorted_singleton v
  | cons e es ih =>
    unfold linearInsert
    by_cases hlt : v < e
    · rw [if_pos (by simpa using hlt)]
      refine List.sorted_cons.mpr ⟨?_, h⟩
      intro b hb
      rcases List.mem_cons.mp hb with rfl | hb
      · exact le_of_lt hlt
      · exact le_trans (le_of_lt hlt) (List.rel_of_sorted_cons h b hb)
    · rw [if_neg (by simpa using hlt)]
      refine List.sorted_cons.mpr ⟨?_, ih (List.Sorted.of_cons h)⟩
      intro b hb
      rcases List.mem_cons.mp ((linearInsert_perm _ v es).mem_iff.mp hb) with rfl | hb
      · exact not_lt.mp hlt
      · exact List.rel_of_sorted_cons h b hb

theorem foldl_linearInsert_lt_sorted (l acc : List Nat) (h : acc.Sorted (· ≤ ·)) :
    (l.foldl (fun sorted v => linearInsert (fun a b => decide (a < b)) v sorted) acc).Sorted
      (· ≤ ·) := by
  induction l generalizing acc with
  | nil => exact h
  | cons v vs ih =>
    rw [List.foldl_cons]
    exact ih _ (linearInsert_lt_sorted v acc h)

theorem stdSort_lt_sorted (l : List Nat) (h : l.Nodup) :
    (stdSort (fun a b => decide (a < b)) l).Sorted (· < ·) := by
  have h1 : (stdSort (fun a b => decide (a < b)) l).Sorted (· ≤ ·) := by
    unfold stdSort
    split
    · rename_i he
      rw [List.isEmpty_iff.mp he]
      exact List.sorted_nil
    · exact foldl_linearInsert_lt_sorted _ [] List.sorted_nil
  exact h1.lt_of_le ((stdSort_perm _ l).nodup_iff.mpr h)

theorem set_difference_nil (l : List Nat) : set_difference l [] = l := by
  induction l with
  | nil => rfl
  | cons a as ih =>
    unfold set_difference setDifferenceHead
    rw [ih]

theorem setDifferenceHead_sublist (a : Nat) (as : List Nat)
    (ih : ∀ bs, (set_difference as bs).Sublist as) (bs : List Nat) :
    (setDifferenceHead a (set_difference as) bs).Sublist (a :: as) := by
  induction bs with
  | nil =>
    unfold setDifferenceHead
    exact (ih []).cons₂ a
  | cons b bs ihb =>
    unfold setDifferenceHead
    split_ifs
    · exact (ih (b :: bs)).cons₂ a
    · exact ihb
    · exact (ih bs).cons a

theorem set_difference_sublist (l bs : List Nat) : (set_difference l bs).Sublist l := by
  induction l generalizing bs with
  | nil => unfold set_difference; exact List.Sublist.refl _
  | cons a as ih =>
    unfold set_difference
    exact setDifferenceHead_sublist a as ih bs

theorem mem_setDifferenceHead (a : Nat) (as : List Nat) (has : ∀ y ∈ as, a < y)
    (ih : ∀ bs, bs.Sorted (· < ·) → ∀ x, x ∈ set_difference as bs ↔ x ∈ as ∧ x ∉ bs)
    (bs : List Nat) (hbs : bs.Sorted (· < ·)) (x : Nat) :
    x ∈ setDifferenceHead a (set_difference as) bs ↔ x ∈ a :: as ∧ x ∉ bs := by
  induction bs with
  | nil =>
    unfold setDifferenceHead
    rw [set_difference_nil]
    simp
  | cons b bs ihb =>
    have hb : ∀ y ∈ bs, b < y := fun y hy => List.rel_of_sorted_cons hbs y hy
    have hbs1 : bs.Sorted (· < ·) := List.Sorted.of_cons hbs
    unfold setDifferenceHead
    by_cases h1 : a < b
    · rw [if_pos h1, List.mem_cons, ih (b :: bs) hbs x, List.mem_cons, List.mem_cons]
      constructor
      · rintro (rfl | ⟨h2, h3⟩)
        · refine ⟨Or.inl rfl, ?_⟩
          rintro (rfl | h4)
          · exact lt_irrefl _ h1
          · exact lt_asymm h1 (hb _ h4)
        · exact ⟨Or.inr h2, h3⟩
      · rintro ⟨rfl | h2, h3⟩
        · exact Or.inl rfl
        · exact Or.inr ⟨h2, h3⟩
    · rw [if_neg h1]
      by_cases h2 : b < a
      · rw [if_pos h2, ihb hbs1, List.mem_cons, List.mem_cons]
        constructor
        · rintro ⟨h3, h4⟩
          refine ⟨h3, ?_⟩
          rintro (rfl | h5)
          · rcases h3 with rfl | h3
            · exact lt_irrefl _ h2
            · exact lt_asymm h2 (has _ h3)
          · exact h4 h5
        · rintro ⟨h3, h4⟩
          exact ⟨h3, fun h5 => h4 (Or.inr h5)⟩
      · rw [if_neg h2]
        have hab : a = b := le_antisymm (not_lt.mp h2) (not_lt.mp h1)
        subst hab
        rw [ih bs hbs1 x, List.mem_cons, List.mem_cons]
        constructor
        · rintro ⟨h3, h4⟩
          refine ⟨Or.inr h3, ?_⟩
          rintro (rfl | h5)
          · exact lt_irrefl _ (has _ h3)
          · exact h4 h5
        · rintro ⟨h3 | h3, h4⟩
          · exact absurd (Or.inl h3) h4
          · exact ⟨h3, fun h5 => h4 (Or.inr h5)⟩

theorem mem_set_difference (l bs : List Nat) (hl : l.Sorted (· < ·)) (hbs : bs.Sorted (· < ·))
    (x : Nat) : x ∈ set_difference l bs ↔ x ∈ l ∧ x ∉ bs := by
  induction l generalizing bs x with
  | nil => unfold set_difference; simp
  | cons a as ih =>
    unfold set_difference
    exact mem_setDifferenceHead a as (fun y hy => List.rel_of_sorted_cons hl y hy)
      (fun bs1 h1 x1 => ih bs1 (List.Sorted.of_cons hl) h1 x1) bs hbs x

/-! ## Eviction (C3) -/

theorem update_cache_cache_perm (cfg : Settings) (s : ImageList) :
    (update_cache cfg s).1.m_Cache.Perm (window s.m_Index cfg.CacheSize s.m_Images.length) := by
  rw [update_cache_cache]
  refine (stdSort_perm _ _).trans ?_
  split
  · exact List.Perm.refl _
  · exact stdSort_perm _ _

theorem update_cache_released_spec (cfg : Settings) (s : ImageList) (hs : s.m_Cache.Nodup)
    (hw : (window s.m_Index cfg.CacheSize s.m_Images.length).Nodup) :
    (update_cache cfg s).2.Nodup ∧
      ∀ x, x ∈ (update_cache cfg s).2 ↔
        x ∈ s.m_Cache ∧ x ∉ window s.m_Index cfg.CacheSize s.m_Images.length := by
  rw [update_cache_released]
  by_cases he : s.m_Cache.isEmpty = true
  · rw [if_pos he]
    have : s.m_Cache = [] := List.isEmpty_iff.mp he
    simp [this]
  · rw [if_neg he]
    constructor
    · exact ((stdSort_perm _ _).nodup_iff.mpr hs).sublist (set_difference_sublist _ _)
    · intro x
      rw [mem_set_difference _ _ (stdSort_lt_sorted _ hs) (stdSort_lt_sorted _ hw),
        mem_stdSort, mem_stdSort]

theorem set_current_cache_nodup (cfg : Settings) (s : ImageList) (i : Nat) (fw : Bool)
    (hc : cfg.CacheSize < 2 ^ 31) (hlen : s.m_Images.length ≤ 2 ^ 63)
    (hi : i < s.m_Images.length) (hs : s.m_Cache.Nodup) :
    (set_current cfg s i fw).1.m_Cache.Nodup := by
  unfold set_current
  split
  · exact hs
  · exact (update_cache_cache_perm cfg _).nodup_iff.mpr (window_nodup i _ _ hi hlen hc)

/-- C3: for two successive `set_current` calls on the same collection (any cache size an
`int` setting can hold, any collection a vector can hold, both indices being positions of
the collection, starting from a stored window without repeated position, as the empty
window of a fresh collection is), the second call invokes `reset_pixbuf` exactly once on
every position that is in the window stored by the first call and not in the window
stored by the second, and on no other position; a first call on a collection without a
stored window releases nothing. -/
theorem eviction_exact (cfg : Settings) (s : ImageList) (i1 i2 : Nat) (fw1 fw2 : Bool)
    (hc : cfg.CacheSize < 2 ^ 31) (hlen : s.m_Images.length ≤ 2 ^ 63)
    (h1 : i1 < s.m_Images.length) (h2 : i2 < s.m_Images.length) (hs : s.m_Cache.Nodup) :
    (∀ x, (set_current cfg (set_current cfg s i1 fw1).1 i2 fw2).2.count x =
      if x ∈ (set_current cfg s i1 fw1).1.m_Cache ∧
          x ∉ (set_current cfg (set_current cfg s i1 fw1).1 i2 fw2).1.m_Cache then 1 else 0) ∧
    (s.m_Cache = [] → (set_current cfg s i1 fw1).2 = []) := by
  constructor
  · intro x
    have hW1 := set_current_cache_nodup cfg s i1 fw1 hc hlen h1 hs
    have himg := set_current_images cfg s i1 fw1
    generalize (set_current cfg s i1 fw1).1 = t at hW1 himg ⊢
    unfold set_current
    split
    · simp
    · have hw : (window i2 cfg.CacheSize t.m_Images.length).Nodup :=
        window_nodup i2 _ _ (by rw [himg]; exact h2) (by rw [himg]; exact hlen) hc
      obtain ⟨hnd, hmem⟩ := update_cache_released_spec cfg { t with m_Index := i2 } hW1 hw
      rw [List.count_eq_of_nodup hnd]
      simp only [hmem x, (update_cache_cache_perm cfg { t with m_Index := i2 }).mem_iff]
  · intro he
    unfold set_current
    split
    · rfl
    · rw [update_cache_released]
      simp [he]

/-- Witness of `eviction_exact`: `set_current(4)` then `set_current(9)` on a collection of
11 items with cacheSize = 2. -/
theorem eviction_exact_witness :
    (∀ x, (set_current cacheTwo (set_current cacheTwo (collection 11) 4 false).1 9 false).2.count x
      = if x ∈ (set_current cacheTwo (collection 11) 4 false).1.m_Cache ∧
          x ∉ (set_current cacheTwo (set_current cacheTwo (collection 11) 4 false).1 9
            false).1.m_Cache then 1 else 0) ∧
    ((collection 11).m_Cache = [] → (set_current cacheTwo (collection 11) 4 false).2 = []) :=
  eviction_exact cacheTwo (collection 11) 4 9 false false (by decide) (by decide) (by decide)
    (by decide) (by decide)

/-! ## Size of the window (C1) -/

theorem windowCount_forward (index size c k kb : Nat) (st : CacheLoop)
    (hidx : index < size) (hsize : size ≤ 2 ^ 31) (hc : c ≤ 2 ^ 30)
    (hk : k + 1 ≤ c) (h : WindowCount index size c k kb st) :
    WindowCount index size c (k + 1) kb (cacheIterForward index size c st (k + 1)) := by
  obtain ⟨hn, hp, hlen⟩ := h
  unfold cacheIterForward
  have hy : addSz index (k + 1) = index + (k + 1) := by unfold addSz; omega
  have hn1 : addSz st.ncount 1 = st.ncount + 1 := by
    have : st.ncount ≤ k := by rw [hn]; exact Nat.min_le_left _ _
    unfold addSz; omega
  have hb : intNonneg (subSz (subSz index (k + 1)) c) = true ↔ k + 1 + c ≤ index := by
    unfold intNonneg subSz
    simp only [decide_eq_true_eq]
    omega
  rw [hy, hn1]
  clear hy hn1
  by_cases h1 : index + (k + 1) < size
  · rw [if_pos h1]
    clear hb
    refine ⟨?_, hp, ?_⟩
    · dsimp only
      clear hlen hp
      omega
    · dsimp only
      rw [List.length_append, List.length_singleton, hlen]
      clear hlen hp hn
      omega
  · rw [if_neg h1]
    by_cases h2 : intNonneg (subSz (subSz index (k + 1)) c) = true
    · rw [if_pos h2]
      have hle := hb.mp h2
      clear hb h2
      refine ⟨?_, hp, ?_⟩
      · dsimp only
        clear hlen hp
        omega
      · dsimp only
        rw [List.length_append, List.length_singleton, hlen]
        clear hlen hp hn
        omega
    · rw [if_neg h2]
      have hlt : index < k + 1 + c := by
        by_contra hcon
        exact h2 (hb.mpr (by omega))
      clear hb h2
      refine ⟨?_, hp, ?_⟩
      · clear hlen hp
        omega
      · rw [hlen]
        clear hlen hp hn
        omega

theorem windowCount_backward (index size c kf k : Nat) (st : CacheLoop)
    (hidx : index < size) (hsize : size ≤ 2 ^ 31) (hc : c ≤ 2 ^ 30)
    (hk : k + 1 ≤ c) (h : WindowCount index size c kf k st) :
    WindowCount index size c kf (k + 1) (cacheIterBackward index size c st (k + 1)) := by
  obtain ⟨hn, hp, hlen⟩ := h
  unfold cacheIterBackward
  have hb : intNonneg (subSz index (k + 1)) = true ↔ k + 1 ≤ index := by
    unfold intNonneg subSz
    simp only [decide_eq_true_eq]
    omega
  have hy : addSz (addSz index (k + 1)) c = index + (k + 1) + c := by unfold addSz; omega
  have hp1 : addSz st.pcount 1 = st.pcount + 1 := by
    have : st.pcount ≤ k := by rw [hp]; exact Nat.min_le_left _ _
    unfold addSz; omega
  rw [hy, hp1]
  clear hy hp1
  by_cases h1 : intNonneg (subSz index (k + 1)) = true
  · rw [if_pos h1]
    have hle := hb.mp h1
    clear hb h1
    refine ⟨hn, ?_, ?_⟩
    · dsimp only
      clear hlen hn
      omega
    · dsimp only
      rw [List.length_append, List.length_singleton, hlen]
      clear hlen hp hn
      omega
  · rw [if_neg h1]
    have hlt : index < k + 1 := by
      by_contra hcon
      exact h1 (hb.mpr (by omega))
    clear hb h1
    by_cases h2 : index + (k + 1) + c < size
    · rw [if_pos h2]
      refine ⟨hn, ?_, ?_⟩
      · dsimp only
        clear hlen hn
        omega
      · dsimp only
        rw [List.length_append, List.length_singleton, hlen]
        clear hlen hp hn
        omega
    · rw [if_neg h2]
      refine ⟨hn, ?_, ?_⟩
      · clear hlen hn
        omega
      · rw [hlen]
        clear hlen hp hn
        omega

theorem windowCount_loop (index size c : Nat)
    (hidx : index < size) (hsize : size ≤ 2 ^ 31) (hc : c ≤ 2 ^ 30) (k : Nat) (hk : k ≤ c) :
    WindowCount index size c k k (cacheLoopUpTo index size c k) := by
  induction k with
  | zero =>
    rw [cacheLoopUpTo_zero]
    refine ⟨by simp, by simp, by simp⟩
  | succ k ih =>
    rw [cacheLoopUpTo_succ]
    unfold cacheIter
    exact windowCount_backward index size c (k + 1) k _ hidx hsize hc hk
      (windowCount_forward index size c k k _ hidx hsize hc hk (ih (by omega)))

theorem window_length (index c size : Nat)
    (hidx : index < size) (hsize : size ≤ 2 ^ 31) (hc : c ≤ 2 ^ 30) :
    (window index c size).length =
      1 + min c (size - 1 - index) + min c index
        + (min c (index - c) - min c (size - 1 - index))
        + (min c (size - 1 - index - c) - min c index) := by
  rw [window_eq_loop index c size (by omega)]
  exact (windowCount_loop index size c hidx hsize hc c (le_refl _)).2.2

/-- C1 on the code: with cacheSize = 2, length = 5 and index = 3 the loop of `update_cache`
builds 3, 4, 2, 1 and `set_current(3)` stores four positions, where
min(2*cacheSize + 1, length) = 5. In the iteration i = 2 the forward neighbour 5 is out of
range, one forward neighbour has been taken (`ncount` = 1), and the compensation guard
`static_cast<int>(m_Index - i - cacheSize) >= 0` tests the position -1 while the position
it guards, `m_Index - i - cacheSize + ncount`, is 0: a position of the collection that the
window does not hold. -/
theorem window_misses_position :
    window 3 2 5 = [3, 4, 2, 1] ∧
    (window 3 2 5).length ≠ min (2 * 2 + 1) 5 ∧
    (cacheLoopUpTo 3 5 2 1).ncount = 1 ∧
    intNonneg (subSz (subSz 3 2) 2) = false ∧
    addSz (subSz (subSz 3 2) 2) 1 = 0 ∧
    0 ∉ window 3 2 5 ∧
    (set_current cacheTwo (collection 5) 3 false).1.m_Cache.length = 4 := by
  decide

/-- Where the compensation does fill the window: for every cacheSize up to 2^30, every
length from 1 to 2^31 and every index below length, the window computed by `update_cache`
contains index and has at most min(2*cacheSize + 1, length) elements; it has exactly that
many when length >= 3*cacheSize or length <= cacheSize + 2. -/
theorem window_size (index c size : Nat)
    (hidx : index < size) (hsize : size ≤ 2 ^ 31) (hc : c ≤ 2 ^ 30) :
    index ∈ window index c size ∧
    (window index c size).length ≤ min (2 * c + 1) size ∧
    (3 * c ≤ size ∨ size ≤ c + 2 → (window index c size).length = min (2 * c + 1) size) := by
  refine ⟨index_mem_window index c size hidx (by omega) (by omega), ?_, ?_⟩
  · rw [window_length index c size hidx hsize hc]
    omega
  · intro h
    rw [window_length index c size hidx hsize hc]
    omega

/-- Witness of `window_size`: cacheSize = 2, length = 11, index = 9. -/
theorem window_size_witness :
    9 ∈ window 9 2 11 ∧ (window 9 2 11).length ≤ min (2 * 2 + 1) 11 ∧
    (3 * 2 ≤ 11 ∨ 11 ≤ 2 + 2 → (window 9 2 11).length = min (2 * 2 + 1) 11) :=
  window_size 9 2 11 (by decide) (by decide) (by decide)

/-! ## The window at the start of a collection (C11) -/

theorem window_at_start (size : Nat) (h : 5 ≤ size) : window 0 2 size = [0, 1, 3, 2, 4] := by
  have e : window 0 2 size =
      (cacheIter 0 size 2 (cacheIter 0 size 2 ⟨[0], 0, 0⟩ 1) 2).cache := rfl
  have a1 : addSz 0 1 = 1 := by decide
  have a2 : addSz 0 2 = 2 := by decide
  have a3 : addSz 1 1 = 2 := by decide
  have n1 : intNonneg (subSz 0 1) = false := by decide
  have n2 : intNonneg (subSz 0 2) = false := by decide
  have c1 : addSz 1 2 = 3 := by decide
  have c2 : addSz 2 2 = 4 := by decide
  have v1 : subSz 3 0 = 3 := by decide
  have v2 : subSz 4 0 = 4 := by decide
  have l1 : 1 < size := by omega
  have l2 : 2 < size := by omega
  have l3 : 3 < size := by omega
  have l4 : 4 < size := by omega
  rw [e]
  simp [cacheIter, cacheIterForward, cacheIterBackward, a1, a2, a3, n1, n2, c1, c2, v1, v2,
    l1, l2, l3, l4]

/-- C11: for cacheSize = 2, current index 0 and every collection length of at least 5, the
list that `update_cache` stores is exactly 0, 1, 2, 3, 4, whether or not a window was
stored before. -/
theorem stored_window_at_start (cfg : Settings) (s : ImageList) (hc : cfg.CacheSize = 2)
    (hi : s.m_Index = 0) (hlen : 5 ≤ s.m_Images.length) :
    (update_cache cfg s).1.m_Cache = [0, 1, 2, 3, 4] := by
  rw [update_cache_cache, hc, hi, window_at_start _ hlen]
  split <;> decide

/-- Witness of `stored_window_at_start`: a collection of 5 items. -/
theorem stored_window_at_start_witness :
    cacheTwo.CacheSize = 2 ∧ (collection 5).m_Index = 0 ∧ 5 ≤ (collection 5).m_Images.length ∧
    (update_cache cacheTwo (collection 5)).1.m_Cache = [0, 1, 2, 3, 4] :=
  ⟨rfl, rfl, by decide,
    stored_window_at_start cacheTwo (collection 5) rfl rfl (by decide)⟩

/-! ## Well-formed windows (C12) -/

theorem cacheIterForward_length (index size c : Nat) (st : CacheLoop) (i : Nat) :
    (cacheIterForward index size c st i).cache.length ≤ st.cache.length + 1 := by
  unfold cacheIterForward
  split
  · simp
  · split
    · simp
    · omega

theorem cacheIterBackward_length (index size c : Nat) (st : CacheLoop) (i : Nat) :
    (cacheIterBackward index size c st i).cache.length ≤ st.cache.length + 1 := by
  unfold cacheIterBackward
  split
  · simp
  · split
    · simp
    · omega

theorem cacheLoopUpTo_length (index size c k : Nat) :
    (cacheLoopUpTo index size c k).cache.length ≤ 2 * k + 1 := by
  induction k with
  | zero => rw [cacheLoopUpTo_zero]; simp
  | succ k ih =>
    rw [cacheLoopUpTo_succ]
    unfold cacheIter
    have h1 := cacheIterForward_length index size c (cacheLoopUpTo index size c k) (k + 1)
    have h2 := cacheIterBackward_length index size c
      (cacheIterForward index size c (cacheLoopUpTo index size c k) (k + 1)) (k + 1)
    omega

theorem mem_cacheIterBackward (index size c : Nat) (st : CacheLoop) (i x : Nat)
    (h : x ∈ st.cache) : x ∈ (cacheIterBackward index size c st i).cache := by
  unfold cacheIterBackward
  split
  · exact List.mem_append_left _ h
  · split
    · exact List.mem_append_left _ h
    · exact h

theorem wrapped_compensation (st : CacheLoop) (hn : st.ncount ≤ 2 ^ 30) :
    ∃ x ∈ (cacheIter 0 1 (2 ^ 30 + 1) st (2 ^ 30 + 1)).cache, 1 ≤ x := by
  refine ⟨addSz (subSz (subSz 0 (2 ^ 30 + 1)) (2 ^ 30 + 1)) st.ncount, ?_, ?_⟩
  · unfold cacheIter
    apply mem_cacheIterBackward
    unfold cacheIterForward
    rw [if_neg (by decide), if_pos (by decide)]
    exact List.mem_append_right _ (List.mem_singleton.mpr rfl)
  · have hv : subSz (subSz 0 (2 ^ 30 + 1)) (2 ^ 30 + 1) = 2 ^ 64 - 2 ^ 31 - 2 := by decide
    rw [hv]
    unfold addSz
    omega

/-- C12, as stated, fails: with cacheSize = 2^30 + 1, length = 1 and index = 0 the last
iteration finds `static_cast<int>(m_Index - i - cacheSize)` equal to 2^31 - 2, not negative,
and pushes the wrapped position `m_Index - i - cacheSize + ncount`, which is no position
of the collection. -/
theorem window_position_out_of_range :
    ¬ ∀ x ∈ window 0 (2 ^ 30 + 1) 1, x < 1 := by
  intro hall
  rw [window_eq_loop 0 (2 ^ 30 + 1) 1 (by decide), cacheLoopUpTo_succ] at hall
  have hinv := windowInv_loop 0 1 (2 ^ 30 + 1) (by decide) (by decide) (by decide) (2 ^ 30)
    (by decide)
  have hn := hinv.1
  generalize cacheLoopUpTo 0 1 (2 ^ 30 + 1) (2 ^ 30) = st at hall hn
  obtain ⟨x, hx, h1⟩ := wrapped_compensation st hn
  have := hall x hx
  omega

/-- C12, amended: for every cacheSize from 0 to 2^30, every length a vector can have and
every index below length, the window computed by `update_cache` contains index, all its
elements are positions of the collection, no position occurs twice, and it has at most
2*cacheSize + 1 elements. -/
theorem window_well_formed (index c size : Nat)
    (hidx : index < size) (hsize : size ≤ 2 ^ 63) (hc : c ≤ 2 ^ 30) :
    index ∈ window index c size ∧ (∀ x ∈ window index c size, x < size) ∧
    (window index c size).Nodup ∧ (window index c size).length ≤ 2 * c + 1 := by
  refine ⟨index_mem_window index c size hidx hsize (by omega),
    window_mem_lt index c size hidx hsize hc,
    window_nodup index c size hidx hsize (by omega), ?_⟩
  rw [window_eq_loop index c size (by omega)]
  exact cacheLoopUpTo_length index size c c

/-- Witness of `window_well_formed`: cacheSize = 2, length = 11, index = 9. -/
theorem window_well_formed_witness :
    9 ∈ window 9 2 11 ∧ (∀ x ∈ window 9 2 11, x < 11) ∧
    (window 9 2 11).Nodup ∧ (window 9 2 11).length ≤ 2 * 2 + 1 :=
  window_well_formed 9 2 11 (by decide) (by decide) (by decide)

/-! ## The window as a contiguous range (C13) -/

/-- In a collection of at most `2 ^ 31` items that is at least three cache sizes long, every
element of the window lies in the range of `2 * c + 1` positions that starts at
`min (index - c) (size - 2 * c - 1)`. -/
theorem window_subset_range (index c size : Nat)
    (hidx : index < size) (h3 : 3 * c ≤ size) (hsize : size ≤ 2 ^ 31) (x : Nat)
    (hx : x ∈ window index c size) :
    min (max (index - c) 0) (size - 2 * c - 1) ≤ x ∧
      x ≤ min (max (index - c) 0) (size - 2 * c - 1) + 2 * c := by
  rw [window_eq_loop index c size (by omega)] at hx
  have hinv := windowInv_loop index size c hidx (by omega) (by omega) c (le_refl _)
  have hcnt := windowCount_loop index size c hidx hsize (by omega) c (le_refl _)
  have hcls := hinv.2.2.2.2 x hx
  have hn := hcnt.1
  have hp := hcnt.2.1
  generalize (cacheLoopUpTo index size c c).ncount = n at hcls hn
  generalize (cacheLoopUpTo index size c c).pcount = p at hcls hp
  clear hinv hcnt hx
  omega

/-- C13, as stated, fails: with cacheSize = 1, length = 2^31 + 3 and index = 2^31 + 1 the
backward neighbour 2^31 is taken for negative by the `int` cast; the window is
2^31 + 1, 2^31 + 2, so position 2^31, which belongs to the claimed range starting at
lo = 2^31, is missing and the window has two elements instead of three. -/
theorem window_range_as_stated_fails :
    min (max (2 ^ 31 + 1 - 1) 0) (2 ^ 31 + 3 - 2 * 1 - 1) = 2 ^ 31 ∧
    2 ^ 31 ∉ window (2 ^ 31 + 1) 1 (2 ^ 31 + 3) ∧
    (window (2 ^ 31 + 1) 1 (2 ^ 31 + 3)).length = 2 := by
  decide

/-- C13, amended: for every cacheSize c, every length with max(1, 3*c) <= length <= 2^31 and
every index below length, the window computed by `update_cache` is, as a set, exactly the
contiguous range lo, lo + 1, ..., lo + 2*c with lo = min(max(index - c, 0), length - 2*c - 1),
it holds no position twice and it has exactly 2*c + 1 elements. -/
theorem window_contiguous (index c size : Nat)
    (hidx : index < size) (h3 : max 1 (3 * c) ≤ size) (hsize : size ≤ 2 ^ 31) :
    (∀ x, x ∈ window index c size ↔
      min (max (index - c) 0) (size - 2 * c - 1) ≤ x ∧
        x ≤ min (max (index - c) 0) (size - 2 * c - 1) + 2 * c) ∧
    (window index c size).Nodup ∧ (window index c size).length = 2 * c + 1 := by
  have h3c : 3 * c ≤ size := le_trans (le_max_right _ _) h3
  have hnd := window_nodup index c size hidx (by omega) (by omega)
  have hlen : (window index c size).length = 2 * c + 1 := by
    rw [window_length index c size hidx hsize (by omega)]
    omega
  refine ⟨?_, hnd, hlen⟩
  have hsub : window index c size ⊆
      List.range' (min (max (index - c) 0) (size - 2 * c - 1)) (2 * c + 1) := by
    intro x hx
    have := window_subset_range index c size hidx h3c hsize x hx
    rw [List.mem_range'_1]
    omega
  have hperm := (List.subperm_of_subset hnd hsub).perm_of_length_le
    (by rw [List.length_range', hlen])
  intro x
  rw [hperm.mem_iff, List.mem_range'_1]
  omega

/-- Witness of `window_contiguous`: cacheSize = 2, length = 11, index = 9. -/
theorem window_contiguous_witness :
    (∀ x, x ∈ window 9 2 11 ↔
      min (max (9 - 2) 0) (11 - 2 * 2 - 1) ≤ x ∧
        x ≤ min (max (9 - 2) 0) (11 - 2 * 2 - 1) + 2 * 2) ∧
    (window 9 2 11).Nodup ∧ (window 9 2 11).length = 2 * 2 + 1 :=
  window_contiguous 9 2 11 (by decide) (by decide) (by decide)

end AhoViewer
